import Mathlib

/-!
Shallow embedding of the core of the biblint BibTeX tool (Go sources under
bib/ and lexer/) together with proofs settling the frozen claims about its
specification.

Go strings are modelled as lists of characters (`Str`); for the ASCII inputs
appearing in all claims, Go's byte indexing and UTF-8 rune decoding coincide
with per-character traversal.  Go maps (`map[string]*Value`) are modelled as
association lists; key uniqueness hypotheses are carried where the map
semantics needs them.  Fallible Go code (slice-bound panics) is modelled with
`Option`.
-/

namespace Biblint

/-- Strings as lists of characters (Go `string`, ASCII fragment). -/
abbrev Str := List Char

/-- Conversion from Lean string literals to the `Str` model. -/
def str (s : String) : Str := s.data

/-- Translation of Go `strings.ToLower` (ASCII fragment of Unicode lowering). -/
def lowerStr (s : Str) : Str := s.map Char.toLower

/-- Translation of Go `unicode.IsSpace` (ASCII fragment). -/
def isSpace (c : Char) : Bool := c.isWhitespace

/-- Translation of Go `strings.TrimSpace` (ASCII fragment). -/
def trimList (s : Str) : Str :=
  ((s.dropWhile isSpace).reverse.dropWhile isSpace).reverse

/-- Go string comparison `<` is bytewise lexicographic; on the ASCII fragment
this is characterwise comparison of code points. -/
def ltStr : Str → Str → Bool
  | [], [] => false
  | [], _ :: _ => true
  | _ :: _, [] => false
  | a :: as, b :: bs =>
    if a.val < b.val then true
    else if b.val < a.val then false
    else ltStr as bs

/-- Translation of Go `strconv.Itoa` for the values reachable in the model. -/
def intToStr (i : Int) : Str :=
  if i < 0 then '-' :: Nat.toDigits 10 i.natAbs else Nat.toDigits 10 i.natAbs

/-! ## Brace trees (bib/braces.go) -/

/-- Translation of the Go struct `BraceNode` (braces.go): a node holds a list
of children and leaf text; a node is a leaf iff it has no children.  The Go
distinction between a nil and an empty `Children` slice is not represented:
every node produced by `ParseBraceTree` has a non-nil slice, and the nil case
is noted at each definition whose behaviour would mention it. -/
inductive BraceNode where
  | mk : List BraceNode → Str → BraceNode

/-- Children accessor of a `BraceNode`. -/
def BraceNode.children : BraceNode → List BraceNode
  | .mk kids _ => kids

/-- Leaf-text accessor of a `BraceNode`. -/
def BraceNode.leafText : BraceNode → Str
  | .mk _ t => t

/-- Translation of `BraceNode.IsLeaf` (braces.go): true iff no children. -/
def BraceNode.isLeaf (bn : BraceNode) : Bool := bn.children.isEmpty

/-- Helper for the parser: Go's `saveAccum` appends a leaf holding the
accumulated literal text when it is nonempty. -/
def saveK (kids : List BraceNode) (accum : Str) : List BraceNode :=
  if accum.isEmpty then kids else kids ++ [BraceNode.mk [] accum]

/-- Translation of `ParseBraceTree` (braces.go lines 28-59).  The Go loop over
byte positions is rendered as recursion over the remaining characters carrying
the literal accumulator and the children built so far; the returned number is
the count of characters consumed, exactly as the Go function returns the byte
count.  On `{` the remainder is parsed recursively and the loop resumes after
the consumed prefix; on `}` the function returns including the brace in the
count; end of input closes the node implicitly.  The first argument is fuel
making the recursion structural; callers pass the input length, which the
recursion never exhausts, so the fuel-out branch is dead code. -/
def parseRecF : Nat → List Char → Str → List BraceNode → BraceNode × Nat
  | _, [], accum, kids => (.mk (saveK kids accum) [], 0)
  | 0, _ :: _, accum, kids => (.mk (saveK kids accum) [], 0)
  | fuel + 1, c :: rest, accum, kids =>
    if c = '{' then
      let pr := parseRecF fuel rest [] []
      let pr2 := parseRecF fuel (rest.drop pr.2) [] (saveK kids accum ++ [pr.1])
      (pr2.1, 1 + pr.2 + pr2.2)
    else if c = '}' then (.mk (saveK kids accum) [], 1)
    else
      let pr := parseRecF fuel rest (accum ++ [c]) kids
      (pr.1, pr.2 + 1)

/-- Entry point `ParseBraceTree(s)`: fuel `s.length` strictly bounds the
recursion depth (every recursive call strictly shortens the remaining input),
so the fuel-exhaustion branch of `parseRecF` is unreachable from here and the
function computes exactly the Go recursion. -/
def parseBraceTree (s : Str) : BraceNode × Nat := parseRecF s.length s [] []

mutual

/-- Translation of the helper `flatten(isroot, inclbraces)` (braces.go lines
94-112): leaves yield their text, internal nodes concatenate the flattening of
their children, re-wrapped in braces when not the root and braces are kept. -/
def flattenN (isroot incl : Bool) (bn : BraceNode) : Str :=
  match bn with
  | .mk [] leaf => leaf
  | .mk (k :: ks) _ =>
    if isroot then flattenKids incl (k :: ks)
    else if incl then '{' :: flattenKids incl (k :: ks) ++ ['}']
    else flattenKids incl (k :: ks)

/-- Concatenation of the flattenings of a list of children, in order. -/
def flattenKids (incl : Bool) (l : List BraceNode) : Str :=
  match l with
  | [] => []
  | k :: ks => flattenN false incl k ++ flattenKids incl ks

end

/-- Translation of `Flatten` (braces.go line 83): flatten keeping braces, with
whitespace trimmed at the root only. -/
def flattenGo (bn : BraceNode) : Str := trimList (flattenN true true bn)

/-- Translation of `FlattenForSorting` (braces.go line 88): flatten without
braces and without trimming. -/
def flattenForSort (bn : BraceNode) : Str := flattenN true false bn

/-- Translation of `IsEntireStringBraced` (braces.go line 78). -/
def isEntireStringBraced (bn : BraceNode) : Bool :=
  match bn.children with
  | [c] => ¬ c.isLeaf
  | _ => false

/-- Translation of `ContainsNoBraces` (braces.go line 220). -/
def containsNoBraces (bn : BraceNode) : Bool :=
  match bn.children with
  | [c] => c.isLeaf
  | _ => false

/-! ## Values and symbols (bib.go) -/

/-- Translation of the Go enum `FieldType`. -/
inductive FieldType where
  | stringType
  | numberType
  | symbolType
deriving DecidableEq

/-- Translation of the Go struct `Value`: a tag plus both payload fields, as
in the source (the unused payload carries the Go zero value). -/
structure Value where
  t : FieldType
  s : Str
  i : Int
deriving DecidableEq

/-- Association-list lookup modelling Go map indexing `m[k]`. -/
def lookupV : List (Str × Value) → Str → Option Value
  | [], _ => none
  | (k, v) :: rest, q => if k = q then some v else lookupV rest q

/-- Translation of the package-level `predefinedSymbols` table (bib.go): the
twelve lowercase month abbreviations mapping to full month names. -/
def predef (s : Str) : Option Str :=
  if s = str "jan" then some (str "January")
  else if s = str "feb" then some (str "February")
  else if s = str "mar" then some (str "March")
  else if s = str "apr" then some (str "April")
  else if s = str "may" then some (str "May")
  else if s = str "jun" then some (str "June")
  else if s = str "jul" then some (str "July")
  else if s = str "aug" then some (str "August")
  else if s = str "sep" then some (str "September")
  else if s = str "oct" then some (str "October")
  else if s = str "nov" then some (str "November")
  else if s = str "dec" then some (str "December")
  else none

/-- Translation of the Go string enum `EntryKind` (bib.go), including the
`Deleted` sentinel.  The Go values are distinct strings compared with `==`;
an inductive type with decidable equality is equivalent. -/
inductive EntryKind where
  | deleted
  | other
  | stringKind
  | preamble
  | article
  | book
  | booklet
  | inBook
  | inCollection
  | inProceedings
  | manual
  | mastersThesis
  | misc
  | phdThesis
  | proceedings
  | techReport
  | unpublished
deriving DecidableEq

/-- Translation of the Go struct `Author` (bib.go). -/
structure Author where
  others : Bool
  first : Str
  last : Str
  von : Str
  jr : Str
deriving DecidableEq

/-- Translation of the Go struct `Entry` (bib.go).  The `Fields` map is an
association list from (lowercased by the parser) tag to value. -/
structure Entry where
  kind : EntryKind
  entryString : Str
  key : Str
  fields : List (Str × Value)
  authorList : List Author
  lineNo : Nat
deriving DecidableEq

/-- Translation of the Go struct `Database` (bib.go).  The `Errors` slice is
omitted: none of the modelled operations reads it, and the claims under study
do not mention it. -/
structure Database where
  pubs : List Entry
  symbols : List (Str × Value)
  preamble : List Str
deriving DecidableEq

/-- Translation of `Database.SymbolValue` (bib.go lines 92-110): the loop
`for i < depth && symb.T == SymbolType` becomes recursion on the remaining
depth.  A user-defined symbol is substituted and the loop repeats; a
predefined symbol returns a fresh String value immediately; an undefined
symbol is returned unchanged.  Go's `int` depth behaves for `depth <= 0`
exactly like the `0` case here (the loop body never runs). -/
def symbolValue (db : Database) : Value → Nat → Value
  | v, 0 => v
  | v, d + 1 =>
    if v.t = .symbolType then
      let s := lowerStr v.s
      match lookupV db.symbols s with
      | some v2 => symbolValue db v2 d
      | none =>
        match predef s with
        | some m => ⟨.stringType, m, 0⟩
        | none => v
    else v

/-- Translation of `Value.Equals` (bib.go lines 144-154): tags must match and
the payload of that tag must be identical. -/
def valueEquals (v1 v2 : Value) : Bool :=
  if v1.t = v2.t then
    match v1.t with
    | .stringType => decide (v1.s = v2.s)
    | .symbolType => decide (v1.s = v2.s)
    | .numberType => decide (v1.i = v2.i)
  else false

/-- Translation of `Database.Less` (bib.go lines 113-141): symbols are
expanded to depth 10; two string-or-symbol values compare by the brace-free
flattening of their brace trees; two numbers compare numerically; otherwise
the decimal form of the numeric operand compares as a string against the
other operand's literal text. -/
def less (db : Database) (v1 v2 : Value) : Bool :=
  let v1 := symbolValue db v1 10
  let v2 := symbolValue db v2 10
  if (v1.t = .stringType ∨ v1.t = .symbolType) ∧
     (v2.t = .stringType ∨ v2.t = .symbolType) then
    ltStr (flattenForSort (parseBraceTree v1.s).1)
          (flattenForSort (parseBraceTree v2.s).1)
  else if v1.t = .numberType ∧ v2.t = .numberType then
    decide (v1.i < v2.i)
  else
    let vs1 := if v1.t = .numberType then intToStr v1.i else v1.s
    let vs2 := if v2.t = .numberType then intToStr v2.i else v2.s
    ltStr vs1 vs2

/-- Empty database, as built by `NewDatabase`. -/
def dbEmpty : Database := ⟨[], [], []⟩

/-! ## Word splitting and minimal braces (bib/braces.go) -/

/-- Translation of the ASCII fragment of Go `unicode.IsPunct` (Unicode
category P restricted to ASCII; `$ + < = > ^ | ~` are symbols, not
punctuation). -/
def isPunct (c : Char) : Bool :=
  c ∈ ['!', '"', '#', '%', '&', '\'', '(', ')', '*', ',', '-', '.', '/',
       ':', ';', '?', '@', '[', '\\', ']', '_', '{', '}']

/-- Loop of `IsStrangeCase` (braces.go lines 335-349): `p` counts the
non-punctuation characters seen so far, `prev` is the previous character. -/
def strangeGo : Str → Nat → Char → Bool
  | [], _, _ => false
  | r :: rest, p, prev =>
    if 0 < p ∧ prev ≠ '-' ∧ r.isUpper then true
    else strangeGo rest (if isPunct r then p else p + 1) r

/-- Translation of `IsStrangeCase` (braces.go): an uppercase letter anywhere
after the first non-punctuation character, unless preceded by a hyphen. -/
def isStrangeCase (s : Str) : Bool := strangeGo s 0 ' '

/-- Translation of `HasQuote` (braces.go lines 352-360). -/
def hasQuote (w : Str) : Bool := w.any (fun c => c = '"')

/-- Loop of `splitWords` (braces.go lines 195-217), carrying the in-space
flag, the current run and the runs already emitted. -/
def splitWordsGo : Str → Bool → Str → List Str → List Str
  | [], _, word, acc => if word.isEmpty then acc else acc ++ [word]
  | r :: rest, inspace, word, acc =>
    if inspace = isSpace r then splitWordsGo rest inspace (word ++ [r]) acc
    else splitWordsGo rest (isSpace r) [r]
        (if word.isEmpty then acc else acc ++ [word])

/-- Translation of `splitWords` (braces.go): splits a string into maximal runs
of whitespace and non-whitespace characters, preserving all characters. -/
def splitWords (s : Str) : List Str :=
  match s with
  | [] => []
  | c :: _ => splitWordsGo s (isSpace c) [] []

/-- Word wrapping step of `FlattenToMinBraces`: a word that is strange-case or
contains a double quote is wrapped in braces. -/
def minBraceWord (w : Str) : Str :=
  if isStrangeCase w ∨ hasQuote w then '{' :: w ++ ['}'] else w

/-- Per-child step of `FlattenToMinBraces`: leaf children are split into words
with each word possibly wrapped; non-leaf children are flattened as usual. -/
def minBraceChild (c : BraceNode) : Str :=
  if c.isLeaf then ((splitWords c.leafText).map minBraceWord).flatten
  else flattenN false true c

/-- Translation of `FlattenToMinBraces` (braces.go lines 229-254).  The Go
function first tests `bn.Children != nil`; every node returned as the root by
`ParseBraceTree` carries a non-nil (possibly empty) slice, so for the trees
this model builds the first branch is always taken and the nil branch
(`bn.Flatten()`) is unreachable; it is therefore not represented. -/
def flattenToMinBraces (bn : BraceNode) : Str :=
  (bn.children.map minBraceChild).flatten

/-! ## Entry comparison and the duplicate engine (bib.go) -/

/-- Translation of `Entry.IsSubset` (bib.go lines 183-194): same kind,
case-insensitively equal entry strings, and every field of the first entry
present in the second with an `Equals` value. -/
def isSubset (e1 e2 : Entry) : Bool :=
  if e1.kind ≠ e2.kind ∨ lowerStr e1.entryString ≠ lowerStr e2.entryString then
    false
  else
    e1.fields.all fun p =>
      match lookupV e2.fields p.1 with
      | some v2 => valueEquals p.2 v2
      | none => false

/-- Translation of `Entry.Equals` (bib.go lines 202-204): mutual subsets. -/
def entryEquals (e1 e2 : Entry) : Bool := isSubset e1 e2 && isSubset e2 e1

/-- Marking an entry deleted (`entries[i].Kind = Deleted`). -/
def markDel (e : Entry) : Entry := { e with kind := .deleted }

/-- Default entry used for indexing; all modelled loops index in bounds. -/
def defEntry : Entry := ⟨.other, [], [], [], [], 0⟩

/-- Entry list indexing, modelling Go slice indexing on valid indices. -/
def getE (l : List Entry) (i : Nat) : Entry := l.getD i defEntry

/-- In-place mutation `entries[i].Kind = Deleted` on the shared pub list. -/
def setDel (l : List Entry) (i : Nat) : List Entry := l.set i (markDel (getE l i))

/-- Translation of `removeDeleted` (bib.go lines 684-694).  Go allocates a
slice of length `len(pubs) - ndel` and copies the non-deleted entries into it:
when more survivors exist than slots the copy writes out of range and the
program panics; when fewer exist the tail keeps nil pointers.  Both abnormal
outcomes are modelled as `none`; the normal case (`ndel` equals the number of
deleted entries) compacts the list preserving order. -/
def removeDeleted (pubs : List Entry) (ndel : Nat) : Option (List Entry) :=
  let surv := pubs.filter fun e => e.kind ≠ .deleted
  if surv.length + ndel = pubs.length then some surv else none

/-- Lowercased key, the binning key of `RemoveExactDups`. -/
def lowerKeyE (e : Entry) : Str := lowerStr e.key

/-- Distinct lowercased keys of the pub list.  Go iterates its `bins` map in
unspecified order; bins are disjoint and are processed independently, so the
first-appearance order fixed here yields the same result. -/
def binKeys (pubs : List Entry) : List Str := (pubs.map lowerKeyE).dedup

/-- Indices of the pubs whose lowercased key is `k`, in pub order — the bin
slices built by the first loop of `RemoveExactDups`. -/
def keyBin (pubs : List Entry) (k : Str) : List Nat :=
  (List.range pubs.length).filter fun i => lowerKeyE (getE pubs i) = k

/-- Per-bin pair loop of `RemoveExactDups` (bib.go lines 665-677): for each
position the inner loop scans the rest of the bin and, at the first equal
entry, marks the outer entry deleted and breaks; `List.any` renders the inner
scan-with-break.  The entry list is threaded to keep the in-place kind
mutations visible to later comparisons, as in the source. -/
def exactBinLoop : List Nat → List Entry × Nat → List Entry × Nat
  | [], st => st
  | i :: rest, (l, nd) =>
    if rest.any (fun j => entryEquals (getE l i) (getE l j)) then
      exactBinLoop rest (setDel l i, nd + 1)
    else exactBinLoop rest (l, nd)

/-- Translation of `RemoveExactDups` (bib.go lines 651-680): bin by lowercase
key, mark within each bin, then compact with `removeDeleted`. -/
def removeExactDups (db : Database) : Option Database :=
  let st := ((binKeys db.pubs).map (keyBin db.pubs)).foldl
    (fun st bin => exactBinLoop bin st) (db.pubs, 0)
  (removeDeleted st.1 st.2).map fun ps => { db with pubs := ps }

/-- String-typed title of an entry, the binning key of
`RemoveContainedEntries` (bib.go lines 700-711). -/
def titleOf (e : Entry) : Option Str :=
  match lookupV e.fields (str "title") with
  | some v => if v.t = .stringType then some v.s else none
  | none => none

/-- Distinct title strings of the pubs carrying a string title; as for
`binKeys`, Go's map order is unspecified and the bins are independent. -/
def titleKeys (pubs : List Entry) : List Str := (pubs.filterMap titleOf).dedup

/-- Indices of the pubs with string title `t`, in pub order. -/
def titleBin (pubs : List Entry) (t : Str) : List Nat :=
  (List.range pubs.length).filter fun i => titleOf (getE pubs i) = some t

/-- Inner pair loop of `RemoveContainedEntries` (bib.go lines 717-727): for a
fixed outer index the inner index walks the rest of the bin; a subset entry is
marked deleted (the first branch wins when both directions hold) and `ndel`
counts every marking, with mutations visible to later pairs. -/
def containInner (i : Nat) : List Nat → List Entry × Nat → List Entry × Nat
  | [], st => st
  | j :: rest, (l, nd) =>
    if isSubset (getE l i) (getE l j) then
      containInner i rest (setDel l i, nd + 1)
    else if isSubset (getE l j) (getE l i) then
      containInner i rest (setDel l j, nd + 1)
    else containInner i rest (l, nd)

/-- Outer pair loop of `RemoveContainedEntries` over one title bin. -/
def containOuter : List Nat → List Entry × Nat → List Entry × Nat
  | [], st => st
  | i :: rest, st => containOuter rest (containInner i rest st)

/-- Translation of `RemoveContainedEntries` (bib.go lines 697-732): bin the
string-titled pubs by exact title, run the pair loops in every bin, then
compact with `removeDeleted`. -/
def removeContainedEntries (db : Database) : Option Database :=
  let st := ((titleKeys db.pubs).map (titleBin db.pubs)).foldl
    (fun st bin => containOuter bin st) (db.pubs, 0)
  (removeDeleted st.1 st.2).map fun ps => { db with pubs := ps }

/-- Shorthand for a string value. -/
def vStr (s : String) : Value := ⟨.stringType, str s, 0⟩

/-- Shorthand for a number value. -/
def vNum (n : Int) : Value := ⟨.numberType, [], n⟩

/-- Shorthand for a symbol value. -/
def vSym (s : String) : Value := ⟨.symbolType, str s, 0⟩

/-! ## Author-name parsing (bib/parser.go author routines) -/

/-- Loop of `splitOnTopLevel` (braces.go lines 301-329), carrying the running
brace count (Go int, may go negative), the current word and the words emitted
so far.  A whitespace character at brace level zero ends the current word;
every other character, including whitespace inside braces and the braces
themselves, extends it. -/
def splitTLGo : Str → Int → Str → List Str → List Str
  | [], _, word, words => if word.isEmpty then words else words ++ [word]
  | r :: rest, nb, word, words =>
    let nb2 := if r = '{' then nb + 1 else if r = '}' then nb - 1 else nb
    if nb2 = 0 ∧ isSpace r then
      if word.isEmpty then splitTLGo rest nb2 [] words
      else splitTLGo rest nb2 [] (words ++ [word])
    else splitTLGo rest nb2 (word ++ [r]) words

/-- Translation of `splitOnTopLevel` (braces.go): trim, then split on
top-level whitespace treating brace groups as units. -/
def splitTL (s : Str) : List Str := splitTLGo (trimList s) 0 [] []

/-- The `following` rune of `splitOnTopLevelString`: the character after a
separator match, or a space when the match ends at or beyond the
second-to-last position (the Go guard is `i+len(sep) < len(s)-1`). -/
def followingAt (s sep : Str) (i : Nat) : Char :=
  if i + sep.length < s.length - 1 then (s.drop (i + sep.length)).headD ' '
  else ' '

/-- Loop of `splitOnTopLevelString` (braces.go lines 259-297): the Go loop
over byte positions `i` of `s` is rendered over the remaining suffix `todo`
(always `s.drop i`), carrying the running brace count, the end position of
the last split, the previous character and the segments emitted so far.  A
case-insensitive occurrence of `sep` at brace level zero, starting at or
after the previous split's end, splits — unconditionally when `whitespace` is
false, and otherwise only when surrounded by whitespace. -/
def splitTLSGo (s sep : Str) (whitespace : Bool) :
    Str → Nat → Int → Nat → Char → List Str → List Str
  | [], _, _, lastend, _, acc => acc ++ [s.drop lastend]
  | r :: todo, i, nb, lastend, prev, acc =>
    let nb2 := if r = '{' then nb + 1 else if r = '}' then nb - 1 else nb
    if nb2 = 0 ∧ lastend ≤ i ∧ i + sep.length ≤ s.length ∧
        lowerStr ((s.drop i).take sep.length) = sep ∧
        (whitespace = false ∨
          (isSpace prev ∧ isSpace (followingAt s sep i))) then
      splitTLSGo s sep whitespace todo (i + 1) nb2 (i + sep.length) r
        (acc ++ [(s.drop lastend).take (i - lastend)])
    else splitTLSGo s sep whitespace todo (i + 1) nb2 lastend r acc

/-- Translation of `splitOnTopLevelString` (braces.go). -/
def splitOnTopLevelString (s sep : Str) (whitespace : Bool) : List Str :=
  splitTLSGo s sep whitespace s 0 0 0 ' ' []

/-- First rune of a word is a lowercase letter; the empty word decodes to
RuneError, which is not lowercase. -/
def isLowerInitial (w : Str) : Bool :=
  match w with
  | [] => false
  | c :: _ => c.isLower

/-- First rune of a word is an uppercase letter; the empty word decodes to
RuneError, which is not uppercase (the Go loop tests both). -/
def isUpperInitial (w : Str) : Bool :=
  match w with
  | [] => false
  | c :: _ => c.isUpper

/-- Translation of Go `strings.Join(ws, " ")`. -/
def joinSp : List Str → Str
  | [] => []
  | [w] => w
  | w :: rest => w ++ ' ' :: joinSp rest

/-- Translation of `parseVon` (parser.go): a single word is all last name;
otherwise scan from the second-to-last word backwards for the first word with
a lowercase initial — everything up to and including it is the von part and
the rest is the last name.  On the empty word list the Go code slices with a
negative bound and panics, modelled as `none`. -/
def parseVon (last : List Str) : Option (Str × Str) :=
  match last with
  | [] => none
  | [w] => some ([], w)
  | _ =>
    match (List.range (last.length - 1)).reverse.find?
        (fun j => isLowerInitial (last.getD j [])) with
    | some j => some (joinSp (last.take (j + 1)), joinSp (last.drop (j + 1)))
    | none => some ([], joinSp last)

/-- Translation of `parseNameParts` (parser.go): the first name is the
longest prefix of uppercase-initial words not including the final word (the
Go loop runs while `i < len(s)-1` and the word starts uppercase); the rest
feeds `parseVon`. -/
def parseNameParts (name : Str) : Option (Str × Str × Str) :=
  let s := splitTL name
  let i := ((s.dropLast).takeWhile isUpperInitial).length
  (parseVon (s.drop i)).map fun vl => (joinSp (s.take i), vl.1, vl.2)

/-- Translation of `NormalizeName` (parser.go): trim; empty yields no author;
a case-insensitive "others" yields the placeholder; otherwise split on
top-level commas into 1-3 trimmed parts and fill the name parts; more parts
yield no author. -/
def normalizeName (name : Str) : Option Author :=
  let name := trimList name
  if name.isEmpty then none
  else if lowerStr name = str "others" then some ⟨true, [], [], [], []⟩
  else
    let parts := (splitOnTopLevelString name [','] false).map trimList
    match parts with
    | [p0] =>
      (parseNameParts p0).map fun fvl => ⟨false, fvl.1, fvl.2.2, fvl.2.1, []⟩
    | [p0, p1] =>
      (parseVon (splitTL p0)).map fun vl => ⟨false, p1, vl.2, vl.1, []⟩
    | [p0, p1, p2] =>
      (parseVon (splitTL p0)).map fun vl => ⟨false, p2, vl.2, vl.1, p1⟩
    | _ => none

/-- Loop of `quoteName` (parser.go): a double quote at running brace count
exactly zero makes the string need wrapping; the flag is monotone so the
early exit used here equals Go's continue-to-end loop. -/
def hasTopQuoteGo : Str → Int → Bool
  | [], _ => false
  | r :: rest, nb =>
    if r = '{' then hasTopQuoteGo rest (nb + 1)
    else if r = '}' then hasTopQuoteGo rest (nb - 1)
    else if r = '"' ∧ nb = 0 then true
    else hasTopQuoteGo rest nb

/-- Translation of `quoteName` (parser.go): wrap in braces iff a top-level
double quote occurs. -/
def quoteName (s : Str) : Str :=
  if hasTopQuoteGo s 0 then '{' :: s ++ ['}'] else s

/-- Translation of `Author.String` (parser.go): renders "von Last, First" or
"von Last, Jr, First", omitting empty parts, with each rendered part wrapped
by `quoteName`; the placeholder renders as "others". -/
def authorString (a : Author) : Str :=
  if a.others then str "others"
  else
    let last0 := if a.von.isEmpty then a.last else a.von ++ ' ' :: a.last
    let last := quoteName last0
    let first := quoteName a.first
    let jr := quoteName a.jr
    if last.isEmpty then a.first
    else if a.first.isEmpty then last
    else if a.jr.isEmpty then last ++ ',' :: ' ' :: first
    else last ++ ',' :: ' ' :: jr ++ ',' :: ' ' :: first

/-- Characters that keep a name part inert for re-parsing: not whitespace,
not a brace, not a double quote, not a comma. -/
def plainChar (c : Char) : Bool :=
  ¬ (c.isWhitespace ∨ c = '{' ∨ c = '}' ∨ c = '"' ∨ c = ',')

/-- A simple name word: nonempty and made of plain characters only. -/
def goodWord (w : Str) : Prop := w ≠ [] ∧ ∀ c ∈ w, plainChar c = true

instance decGoodWord (w : Str) : Decidable (goodWord w) :=
  inferInstanceAs (Decidable (w ≠ [] ∧ ∀ c ∈ w, plainChar c = true))

/-- A simple rendered name part: nonempty, trimmed, made of spaces and plain
characters. -/
def goodPart (p : Str) : Prop :=
  p ≠ [] ∧ trimList p = p ∧ ∀ c ∈ p, c = ' ' ∨ plainChar c = true

instance decGoodPart (p : Str) : Decidable (goodPart p) :=
  inferInstanceAs (Decidable
    (p ≠ [] ∧ trimList p = p ∧ ∀ c ∈ p, c = ' ' ∨ plainChar c = true))

/-- Claim-side comma splitter used to characterise the Go index machinery on
brace-free input. -/
def commaSplit : Str → List Str
  | [] => [[]]
  | c :: rest =>
    if c = ',' then [] :: commaSplit rest
    else
      match commaSplit rest with
      | [] => [[c]]
      | w :: ws => (c :: w) :: ws

/-! ## Concrete instances used by the claims -/

/-- Database defining the symbol cycle a → b → a. -/
def dbCycle : Database := ⟨[], [(str "a", vSym "b"), (str "b", vSym "a")], []⟩

/-- Entry with uppercase key "A"; content-equal to `eDupLower`. -/
def eDupUpper : Entry :=
  ⟨.article, str "article", str "A", [(str "title", vStr "t")], [], 1⟩

/-- Entry with lowercase key "a"; content-equal to `eDupUpper`. -/
def eDupLower : Entry :=
  ⟨.article, str "article", str "a", [(str "title", vStr "t")], [], 2⟩

/-- Two content-equal entries whose keys agree case-insensitively. -/
def dbC1 : Database := ⟨[eDupUpper, eDupLower], [], []⟩

/-- Largest entry of the nested chain used against
`RemoveContainedEntries`. -/
def eChainZ : Entry :=
  ⟨.article, str "article", str "z",
    [(str "title", vStr "T"), (str "a", vNum 1), (str "b", vNum 2)], [], 1⟩

/-- Middle entry of the nested chain: a strict subset of `eChainZ`. -/
def eChainY : Entry :=
  ⟨.article, str "article", str "y",
    [(str "title", vStr "T"), (str "a", vNum 1)], [], 2⟩

/-- Smallest entry of the nested chain: a strict subset of both others. -/
def eChainX : Entry :=
  ⟨.article, str "article", str "x", [(str "title", vStr "T")], [], 3⟩

/-- Database with the nested subset chain X ⊂ Y ⊂ Z sharing one title. -/
def dbC2 : Database := ⟨[eChainZ, eChainY, eChainX], [], []⟩

/-- Fold state reached by `RemoveContainedEntries` on `dbC2` just before
compaction: the marked entry list and the deletion counter. -/
def c2state : List Entry × Nat :=
  ((titleKeys dbC2.pubs).map (titleBin dbC2.pubs)).foldl
    (fun st bin => containOuter bin st) (dbC2.pubs, 0)

/-- Claim-side brace-depth scanner: `scanD s d` walks `s` starting at nesting
depth `d`, returning the final depth, or `none` when a closing brace occurs at
depth zero.  `scanD s 0 = some 0` is the usual notion of a balanced string. -/
def scanD : List Char → Nat → Option Nat
  | [], d => some d
  | c :: rest, d =>
    if c = '{' then scanD rest (d + 1)
    else if c = '}' then
      if d = 0 then none else scanD rest (d - 1)
    else scanD rest d

/-- Claim-side balancedness of a string (executable). -/
def balancedB (s : Str) : Bool := scanD s 0 == some 0

/-- Grammar view of balanced strings: empty, a non-brace character followed by
a balanced string, or a brace group with balanced content followed by a
balanced string. -/
inductive Bal : Str → Prop
  | nil : Bal []
  | chr (c : Char) (s : Str) : c ≠ '{' → c ≠ '}' → Bal s → Bal (c :: s)
  | grp (a s : Str) : Bal a → Bal s → Bal ('{' :: a ++ '}' :: s)

/-- Claim-side predicate: the string contains no empty brace group, i.e. no
adjacent pair "{}". -/
def noAdjB : Str → Bool
  | [] => true
  | [_] => true
  | c1 :: c2 :: rest =>
    if c1 = '{' ∧ c2 = '}' then false else noAdjB (c2 :: rest)

/-- Claim-side predicate for exact-duplicate removal: the entry at position
`i` has a later entry with the same case-insensitive key that is
`Entry.Equals` to it (all read off the original, unmutated pub list). -/
def hasLaterExactDup (pubs : List Entry) (i : Nat) : Bool :=
  (List.range pubs.length).any fun j =>
    decide (i < j) &&
      (decide (lowerKeyE (getE pubs j) = lowerKeyE (getE pubs i)) &&
        entryEquals (getE pubs i) (getE pubs j))

/-- Claim-side survivors of exact-duplicate removal: the entries without a
later duplicate, in their original relative order. -/
def survivorsSpec (pubs : List Entry) : List Entry :=
  ((List.range pubs.length).filter fun i => ! hasLaterExactDup pubs i).map
    (getE pubs)

/-- Number of entries marked deleted in a list. -/
def countDel (l : List Entry) : Nat :=
  (l.filter fun e => e.kind = .deleted).length

/-- Pub list with the positions satisfying `p` marked deleted. -/
def markPubs (pubs : List Entry) (p : Nat → Bool) : List Entry :=
  (List.range pubs.length).map fun i =>
    if p i then markDel (getE pubs i) else getE pubs i

/-- Author parsed from the three-comma-part input "Moo, Jr., ": empty first
name, jr suffix "Jr.". -/
def cAuthorJr : Author := ⟨false, [], str "Moo", [], str "Jr."⟩

/-- Author parsed back from rendering `cAuthorJr`: the jr part is gone. -/
def cAuthorNoJr : Author := ⟨false, [], str "Moo", [], []⟩

/-- Modelled from the spec: inserting one tag/value pair into an entry's
field list — the tag is lowercased and, if that lowercased tag is already
present, the pair is dropped (the first occurrence's value is kept). -/
def insertTag (fields : List (Str × Value)) (tag : Str) (v : Value) :
    List (Str × Value) :=
  if fields.any (fun p => decide (p.1 = lowerStr tag)) then fields
  else fields ++ [(lowerStr tag, v)]

/-- Modelled from the spec: the Fields map built from an entry's tag/value
pairs in source order. -/
def buildFields (ps : List (Str × Value)) : List (Str × Value) :=
  ps.foldl (fun acc p => insertTag acc p.1 p.2) []

/-- Modelled from the spec: inserting one symbol definition into the symbol
table, keyed case-insensitively (an existing binding for the key is
overwritten, otherwise the pair is appended). -/
def insertSym (m : List (Str × Value)) (k : Str) (v : Value) :
    List (Str × Value) :=
  if m.any (fun p => decide (p.1 = k)) then
    m.map (fun p => if p.1 = k then (k, v) else p)
  else m ++ [(k, v)]

/-- Modelled from the spec: processing one @string block — every
(symbol, value) pair the block defines is inserted into the symbol table
under the lowercased symbol, and a count-mismatch syntax error is recorded
iff the block defines zero pairs. -/
def processStringBlock (syms pairs : List (Str × Value)) :
    List (Str × Value) × Bool :=
  (pairs.foldl (fun acc q => insertSym acc (lowerStr q.1) q.2) syms,
   decide (pairs.length = 0))

/-! ## Helper lemmas -/

theorem getE_eq_getElem (l : List Entry) (i : Nat) (h : i < l.length) :
    getE l i = l[i] := by
  rw [getE, List.getD_eq_getElem?_getD, List.getElem?_eq_getElem h]; rfl

theorem getE_mem (l : List Entry) (i : Nat) (h : i < l.length) :
    getE l i ∈ l := by
  rw [getE_eq_getElem l i h]; exact List.getElem_mem h

theorem length_setDel (l : List Entry) (i : Nat) :
    (setDel l i).length = l.length := by
  simp [setDel]

theorem getE_setDel_ne (l : List Entry) (i j : Nat) (h : j ≠ i) :
    getE (setDel l i) j = getE l j := by
  unfold getE setDel
  rw [List.getD_eq_getElem?_getD, List.getD_eq_getElem?_getD,
    List.getElem?_set_ne (fun he => h he.symm)]

theorem getE_setDel_self (l : List Entry) (i : Nat) (h : i < l.length) :
    getE (setDel l i) i = markDel (getE l i) := by
  unfold getE setDel
  rw [List.getD_eq_getElem?_getD, List.getElem?_set_self]
  · rfl
  · exact h

theorem countDel_setDel (l : List Entry) (i : Nat) (h : i < l.length)
    (hk : (getE l i).kind ≠ .deleted) :
    countDel (setDel l i) = countDel l + 1 := by
  induction l generalizing i with
  | nil => simp at h
  | cons hd tl ih =>
    cases i with
    | zero =>
      have hhd : getE (hd :: tl) 0 = hd := rfl
      rw [hhd] at hk
      simp [setDel, getE, countDel, List.filter_cons, markDel, hk]
    | succ i =>
      have hstep : getE (hd :: tl) (i + 1) = getE tl i := rfl
      have hlen : i < tl.length := by simpa using h
      have htl : setDel (hd :: tl) (i + 1) = hd :: setDel tl i := by
        simp [setDel, getE, List.set]
      rw [htl]
      rw [hstep] at hk
      by_cases hd_del : hd.kind = .deleted
      · simp only [countDel, List.filter_cons, hd_del]
        have := ih i hlen hk
        simp only [countDel] at this
        simp [this]
      · simp only [countDel, List.filter_cons]
        have := ih i hlen hk
        simp only [countDel] at this
        simp [hd_del, this]

theorem hasLaterExactDup_iff (pubs : List Entry) (i : Nat) :
    hasLaterExactDup pubs i = true ↔
      ∃ j, i < j ∧ j < pubs.length ∧
        lowerKeyE (getE pubs j) = lowerKeyE (getE pubs i) ∧
        entryEquals (getE pubs i) (getE pubs j) = true := by
  constructor
  · intro h
    rw [hasLaterExactDup, List.any_eq_true] at h
    obtain ⟨j, hj, hp⟩ := h
    simp only [Bool.and_eq_true, decide_eq_true_eq] at hp
    exact ⟨j, hp.1, List.mem_range.mp hj, hp.2.1, hp.2.2⟩
  · rintro ⟨j, h1, h2, h3, h4⟩
    rw [hasLaterExactDup, List.any_eq_true]
    refine ⟨j, List.mem_range.mpr h2, ?_⟩
    simp [h1, h3, h4]

theorem length_markPubs (pubs : List Entry) (p : Nat → Bool) :
    (markPubs pubs p).length = pubs.length := by
  simp [markPubs]

theorem filter_partition_length (l : List Entry) (p : Entry → Bool) :
    (l.filter p).length + (l.filter fun e => ! p e).length = l.length := by
  induction l with
  | nil => rfl
  | cons hd tl ih => by_cases h : p hd <;> simp [List.filter_cons, h] <;> omega

theorem countDel_eq_zero (l : List Entry) (h : ∀ e ∈ l, e.kind ≠ .deleted) :
    countDel l = 0 := by
  rw [countDel, List.length_eq_zero, List.filter_eq_nil_iff]
  intro e he
  simpa using h e he

theorem exactBinLoop_spec (pubs : List Entry) (bs : List Nat) :
    ∀ (l : List Entry) (nd : Nat),
      l.length = pubs.length →
      (∀ i ∈ bs, i < pubs.length) →
      List.Pairwise (· < ·) bs →
      (∀ i ∈ bs, getE l i = getE pubs i) →
      (∀ i ∈ bs, ∀ j, i < j → j < pubs.length →
        lowerKeyE (getE pubs j) = lowerKeyE (getE pubs i) → j ∈ bs) →
      (∀ i ∈ bs, ∀ j ∈ bs, lowerKeyE (getE pubs i) = lowerKeyE (getE pubs j)) →
      (∀ e ∈ pubs, e.kind ≠ .deleted) →
      (exactBinLoop bs (l, nd)).1.length = pubs.length ∧
      (∀ k, k ∉ bs → getE (exactBinLoop bs (l, nd)).1 k = getE l k) ∧
      (∀ i ∈ bs, getE (exactBinLoop bs (l, nd)).1 i =
        if hasLaterExactDup pubs i then markDel (getE pubs i)
        else getE pubs i) ∧
      (exactBinLoop bs (l, nd)).2 + countDel l =
        nd + countDel (exactBinLoop bs (l, nd)).1 := by
  induction bs with
  | nil =>
    intro l nd hlen _ _ _ _ _ _
    refine ⟨hlen, fun k _ => rfl, fun i hi => absurd hi (List.not_mem_nil i), rfl⟩
  | cons i rest ih =>
    intro l nd hlen hsub hpw hag hcomp hsame hkinds
    have hidx : i < pubs.length := hsub i (List.mem_cons_self i rest)
    have hirest : ∀ j ∈ rest, i < j := (List.pairwise_cons.mp hpw).1
    have hinotrest : i ∉ rest := fun hmem => absurd (hirest i hmem) (lt_irrefl i)
    have hagi : getE l i = getE pubs i := hag i (List.mem_cons_self i rest)
    have hcnd_iff :
        (rest.any fun j => entryEquals (getE l i) (getE l j)) = true ↔
          hasLaterExactDup pubs i = true := by
      constructor
      · intro h
        obtain ⟨j, hj, heq⟩ := List.any_eq_true.mp h
        have hjb : j ∈ i :: rest := List.mem_cons_of_mem i hj
        rw [hagi, hag j hjb] at heq
        refine (hasLaterExactDup_iff pubs i).mpr ⟨j, hirest j hj, hsub j hjb, ?_, heq⟩
        exact (hsame i (List.mem_cons_self i rest) j hjb).symm
      · intro h
        obtain ⟨j, h1, h2, h3, h4⟩ := (hasLaterExactDup_iff pubs i).mp h
        have hjb : j ∈ i :: rest :=
          hcomp i (List.mem_cons_self i rest) j h1 h2 h3
        have hjrest : j ∈ rest := by
          rcases List.mem_cons.mp hjb with he | hm
          · omega
          · exact hm
        refine List.any_eq_true.mpr ⟨j, hjrest, ?_⟩
        rw [hagi, hag j hjb]
        exact h4
    have hsub2 : ∀ a ∈ rest, a < pubs.length :=
      fun a ha => hsub a (List.mem_cons_of_mem i ha)
    have hpw2 : List.Pairwise (· < ·) rest := (List.pairwise_cons.mp hpw).2
    have hcomp2 : ∀ a ∈ rest, ∀ j, a < j → j < pubs.length →
        lowerKeyE (getE pubs j) = lowerKeyE (getE pubs a) → j ∈ rest := by
      intro a ha j h1 h2 h3
      have := hcomp a (List.mem_cons_of_mem i ha) j h1 h2 h3
      rcases List.mem_cons.mp this with he | hm
      · subst he; exact absurd (lt_trans (hirest a ha) h1) (lt_irrefl j)
      · exact hm
    have hsame2 : ∀ a ∈ rest, ∀ b ∈ rest,
        lowerKeyE (getE pubs a) = lowerKeyE (getE pubs b) :=
      fun a ha b hb =>
        hsame a (List.mem_cons_of_mem i ha) b (List.mem_cons_of_mem i hb)
    by_cases hc : (rest.any fun j => entryEquals (getE l i) (getE l j)) = true
    · have hmatch : hasLaterExactDup pubs i = true := hcnd_iff.mp hc
      have hstep : exactBinLoop (i :: rest) (l, nd) =
          exactBinLoop rest (setDel l i, nd + 1) := by
        simp only [exactBinLoop]
        rw [if_pos hc]
      have hag2 : ∀ a ∈ rest, getE (setDel l i) a = getE pubs a := by
        intro a ha
        rw [getE_setDel_ne l i a (Nat.ne_of_gt (hirest a ha))]
        exact hag a (List.mem_cons_of_mem i ha)
      have hlen2 : (setDel l i).length = pubs.length := by
        rw [length_setDel]; exact hlen
      obtain ⟨pa, pb, pc, pd⟩ :=
        ih (setDel l i) (nd + 1) hlen2 hsub2 hpw2 hag2 hcomp2 hsame2 hkinds
      rw [hstep]
      refine ⟨pa, ?_, ?_, ?_⟩
      · intro k hk
        have hknr : k ∉ rest := fun hm => hk (List.mem_cons_of_mem i hm)
        have hkne : k ≠ i := fun he => hk (he ▸ List.mem_cons_self i rest)
        rw [pb k hknr, getE_setDel_ne l i k hkne]
      · intro a ha
        rcases List.mem_cons.mp ha with he | hm
        · subst he
          rw [pb a hinotrest, getE_setDel_self l a (hlen ▸ hidx), hagi, hmatch]
          simp
        · exact pc a hm
      · have hcd : countDel (setDel l i) = countDel l + 1 := by
          refine countDel_setDel l i (hlen ▸ hidx) ?_
          rw [hagi]
          exact hkinds (getE pubs i) (getE_mem pubs i hidx)
        rw [hcd] at pd
        omega
    · have hmatch : hasLaterExactDup pubs i = false := by
        rcases Bool.eq_false_or_eq_true (hasLaterExactDup pubs i) with h0 | h1
        · exact absurd (hcnd_iff.mpr h0) hc
        · exact h1
      have hstep : exactBinLoop (i :: rest) (l, nd) =
          exactBinLoop rest (l, nd) := by
        simp only [exactBinLoop]
        rw [if_neg hc]
      obtain ⟨pa, pb, pc, pd⟩ :=
        ih l nd hlen hsub2 hpw2
          (fun a ha => hag a (List.mem_cons_of_mem i ha)) hcomp2 hsame2 hkinds
      rw [hstep]
      refine ⟨pa, ?_, ?_, pd⟩
      · intro k hk
        exact pb k (fun hm => hk (List.mem_cons_of_mem i hm))
      · intro a ha
        rcases List.mem_cons.mp ha with he | hm
        · subst he
          rw [pb a hinotrest, hagi, hmatch]
          simp
        · exact pc a hm

theorem symbolValue_zero (db : Database) (v : Value) : symbolValue db v 0 = v := rfl

theorem symbolValue_nonsymbol (db : Database) (v : Value) (d : Nat)
    (h : v.t ≠ .symbolType) : symbolValue db v d = v := by
  cases d with
  | zero => rfl
  | succ e => simp [symbolValue, h]

theorem symbolValue_undef (db : Database) (v : Value) (d : Nat)
    (h1 : lookupV db.symbols (lowerStr v.s) = none)
    (h2 : predef (lowerStr v.s) = none) : symbolValue db v d = v := by
  cases d with
  | zero => rfl
  | succ e =>
    by_cases ht : v.t = .symbolType
    · simp [symbolValue, ht, h1, h2]
    · simp [symbolValue, ht]

theorem symbolValue_predef (db : Database) (v : Value) (m : Str) (d : Nat)
    (ht : v.t = .symbolType) (hd : 1 ≤ d)
    (h1 : lookupV db.symbols (lowerStr v.s) = none)
    (h2 : predef (lowerStr v.s) = some m) :
    symbolValue db v d = ⟨.stringType, m, 0⟩ := by
  cases d with
  | zero => omega
  | succ e => simp [symbolValue, ht, h1, h2]

theorem symbolValue_user (db : Database) (v v2 : Value) (d : Nat)
    (ht : v.t = .symbolType)
    (h1 : lookupV db.symbols (lowerStr v.s) = some v2) :
    symbolValue db v (d + 1) = symbolValue db v2 d := by
  simp [symbolValue, ht, h1]

theorem mem_keyBin (pubs : List Entry) (k : Str) (i : Nat) :
    i ∈ keyBin pubs k ↔ i < pubs.length ∧ lowerKeyE (getE pubs i) = k := by
  simp [keyBin, List.mem_filter, List.mem_range]

theorem keyBin_pairwise (pubs : List Entry) (k : Str) :
    List.Pairwise (· < ·) (keyBin pubs k) :=
  (List.pairwise_lt_range pubs.length).sublist (List.filter_sublist _)

theorem binsFold_spec (pubs : List Entry)
    (hkinds : ∀ e ∈ pubs, e.kind ≠ .deleted) :
    ∀ (ks : List Str) (l : List Entry) (nd : Nat),
      l.length = pubs.length →
      ks.Nodup →
      (∀ i, i < pubs.length → lowerKeyE (getE pubs i) ∈ ks →
        getE l i = getE pubs i) →
      ((ks.map (keyBin pubs)).foldl
          (fun st bin => exactBinLoop bin st) (l, nd)).1.length = pubs.length ∧
      (∀ i, i < pubs.length → lowerKeyE (getE pubs i) ∈ ks →
        getE ((ks.map (keyBin pubs)).foldl
            (fun st bin => exactBinLoop bin st) (l, nd)).1 i =
          if hasLaterExactDup pubs i then markDel (getE pubs i)
          else getE pubs i) ∧
      (∀ i, i < pubs.length → lowerKeyE (getE pubs i) ∉ ks →
        getE ((ks.map (keyBin pubs)).foldl
            (fun st bin => exactBinLoop bin st) (l, nd)).1 i = getE l i) ∧
      ((ks.map (keyBin pubs)).foldl
          (fun st bin => exactBinLoop bin st) (l, nd)).2 + countDel l =
        nd + countDel ((ks.map (keyBin pubs)).foldl
          (fun st bin => exactBinLoop bin st) (l, nd)).1 := by
  intro ks
  induction ks with
  | nil =>
    intro l nd hlen _ _
    exact ⟨hlen, fun i _ hk => absurd hk (List.not_mem_nil _),
      fun i _ _ => rfl, rfl⟩
  | cons k kr ih =>
    intro l nd hlen hnd hag
    have hknr : k ∉ kr := (List.nodup_cons.mp hnd).1
    have hnd2 : kr.Nodup := (List.nodup_cons.mp hnd).2
    obtain ⟨qa, qb, qc, qd⟩ :=
      exactBinLoop_spec pubs (keyBin pubs k) l nd hlen
        (fun i hi => ((mem_keyBin pubs k i).mp hi).1)
        (keyBin_pairwise pubs k)
        (fun i hi =>
          hag i ((mem_keyBin pubs k i).mp hi).1
            (((mem_keyBin pubs k i).mp hi).2 ▸
              List.mem_cons_self k kr))
        (fun i hi j h1 h2 h3 =>
          (mem_keyBin pubs k j).mpr
            ⟨h2, h3.trans ((mem_keyBin pubs k i).mp hi).2⟩)
        (fun a ha b hb =>
          ((mem_keyBin pubs k a).mp ha).2.trans
            ((mem_keyBin pubs k b).mp hb).2.symm)
        hkinds
    have hfold : ((k :: kr).map (keyBin pubs)).foldl
        (fun st bin => exactBinLoop bin st) (l, nd) =
        (kr.map (keyBin pubs)).foldl (fun st bin => exactBinLoop bin st)
          (exactBinLoop (keyBin pubs k) (l, nd)) := by
      simp [List.foldl_cons]
    have hag2 : ∀ i, i < pubs.length → lowerKeyE (getE pubs i) ∈ kr →
        getE (exactBinLoop (keyBin pubs k) (l, nd)).1 i = getE pubs i := by
      intro i hi hik
      have hne : lowerKeyE (getE pubs i) ≠ k := fun he => hknr (he ▸ hik)
      have hnb : i ∉ keyBin pubs k := fun hm =>
        hne ((mem_keyBin pubs k i).mp hm).2
      rw [qb i hnb]
      exact hag i hi (List.mem_cons_of_mem k hik)
    obtain ⟨ra, rb, rc, rd⟩ :=
      ih (exactBinLoop (keyBin pubs k) (l, nd)).1
        (exactBinLoop (keyBin pubs k) (l, nd)).2 qa hnd2 hag2
    simp only [Prod.mk.eta] at ra rb rc rd
    rw [hfold]
    refine ⟨ra, ?_, ?_, ?_⟩
    · intro i hi hik
      rcases List.mem_cons.mp hik with he | hm
      · have hib : i ∈ keyBin pubs k := (mem_keyBin pubs k i).mpr ⟨hi, he⟩
        have hnotkr : lowerKeyE (getE pubs i) ∉ kr := he ▸ hknr
        rw [rc i hi hnotkr]
        exact qc i hib
      · exact rb i hi hm
    · intro i hi hik
      have hne : lowerKeyE (getE pubs i) ≠ k :=
        fun he => hik (he ▸ List.mem_cons_self k kr)
      have hnotkr : lowerKeyE (getE pubs i) ∉ kr :=
        fun hm => hik (List.mem_cons_of_mem k hm)
      have hnb : i ∉ keyBin pubs k := fun hm =>
        hne ((mem_keyBin pubs k i).mp hm).2
      rw [rc i hi hnotkr]
      exact qb i hnb
    · omega

theorem scanD_shift (s : Str) :
    ∀ d e k, scanD s d = some e → scanD s (d + k) = some (e + k) := by
  induction s with
  | nil =>
    intro d e k h
    simp only [scanD, Option.some.injEq] at h
    simp [scanD, h]
  | cons c rest ih =>
    intro d e k h
    by_cases h1 : c = '{'
    · simp only [scanD, if_pos h1] at h ⊢
      have := ih (d + 1) e k h
      rwa [show d + 1 + k = d + k + 1 by omega] at this
    · by_cases h2 : c = '}'
      · simp only [scanD, if_neg h1, if_pos h2] at h ⊢
        by_cases h3 : d = 0
        · rw [if_pos h3] at h; exact absurd h (by simp)
        · rw [if_neg h3] at h
          rw [if_neg (by omega : ¬ d + k = 0)]
          have := ih (d - 1) e k h
          rwa [show d - 1 + k = d + k - 1 by omega] at this
      · simp only [scanD, if_neg h1, if_neg h2] at h ⊢
        exact ih d e k h

theorem scanD_append (a b : Str) :
    ∀ d, scanD (a ++ b) d = (scanD a d).bind (fun e => scanD b e) := by
  induction a with
  | nil => intro d; simp [scanD]
  | cons c rest ih =>
    intro d
    by_cases h1 : c = '{'
    · simp only [List.cons_append, scanD, if_pos h1]; exact ih (d + 1)
    · by_cases h2 : c = '}'
      · simp only [List.cons_append, scanD, if_neg h1, if_pos h2]
        by_cases h3 : d = 0
        · simp [h3]
        · simp only [if_neg h3]; exact ih (d - 1)
      · simp only [List.cons_append, scanD, if_neg h1, if_neg h2]; exact ih d

theorem scanD_split :
    ∀ (n : Nat) (r : Str), r.length ≤ n → ∀ d, scanD r (d + 1) = some 0 →
      ∃ a b, r = a ++ '}' :: b ∧ scanD a 0 = some 0 ∧ scanD b d = some 0 := by
  intro n
  induction n with
  | zero =>
    intro r hr d h
    have : r = [] := List.length_eq_zero.mp (Nat.le_zero.mp hr)
    subst this
    simp [scanD] at h
  | succ n ih =>
    intro r hr d h
    cases r with
    | nil => simp [scanD] at h
    | cons c rest =>
      by_cases h1 : c = '{'
      · subst h1
        simp only [scanD, if_pos rfl] at h
        obtain ⟨a1, b1, he1, ha1, hb1⟩ :=
          ih rest (by simpa using hr) (d + 1) h
        obtain ⟨a2, b2, he2, ha2, hb2⟩ :=
          ih b1 (by rw [he1] at hr; simp at hr; omega) d hb1
        refine ⟨'{' :: a1 ++ '}' :: a2, b2, ?_, ?_, hb2⟩
        · rw [he1, he2]; simp
        · show scanD ('{' :: (a1 ++ '}' :: a2)) 0 = some 0
          simp only [scanD, if_pos rfl]
          rw [scanD_append]
          have : scanD a1 1 = some 1 := by
            have := scanD_shift a1 0 0 1 ha1
            simpa using this
          rw [this]
          show scanD ('}' :: a2) 1 = some 0
          simp [scanD, ha2]
      · by_cases h2 : c = '}'
        · subst h2
          simp only [scanD, if_neg h1, if_pos rfl, if_neg (by omega : ¬ d + 1 = 0),
            Nat.add_sub_cancel] at h
          exact ⟨[], rest, rfl, rfl, h⟩
        · simp only [scanD, if_neg h1, if_neg h2] at h
          obtain ⟨a1, b1, he1, ha1, hb1⟩ := ih rest (by simpa using hr) d h
          refine ⟨c :: a1, b1, by simp [he1], ?_, hb1⟩
          simp [scanD, h1, h2, ha1]

theorem bal_of_scan :
    ∀ (n : Nat) (s : Str), s.length ≤ n → scanD s 0 = some 0 → Bal s := by
  intro n
  induction n with
  | zero =>
    intro s hs _
    have : s = [] := List.length_eq_zero.mp (Nat.le_zero.mp hs)
    subst this
    exact Bal.nil
  | succ n ih =>
    intro s hs h
    cases s with
    | nil => exact Bal.nil
    | cons c rest =>
      by_cases h1 : c = '{'
      · subst h1
        simp only [scanD, if_pos rfl] at h
        obtain ⟨a, b, he, ha, hb⟩ := scanD_split n rest (by simpa using hs) 0 h
        subst he
        have hlen : a.length ≤ n ∧ b.length ≤ n := by
          simp at hs; constructor <;> omega
        exact Bal.grp a b (ih a hlen.1 ha) (ih b hlen.2 hb)
      · by_cases h2 : c = '}'
        · subst h2
          simp [scanD] at h
        · simp only [scanD, if_neg h1, if_neg h2] at h
          exact Bal.chr c rest h1 h2 (ih rest (by simpa using hs) h)

theorem noAdjB_cons (c : Char) (s : Str) (h : noAdjB (c :: s) = true) :
    noAdjB s = true := by
  cases s with
  | nil => rfl
  | cons c2 rest =>
    revert h
    simp only [noAdjB]
    split
    · intro h; exact absurd h (by simp)
    · intro h; exact h

theorem noAdjB_append_right (x y : Str) (h : noAdjB (x ++ y) = true) :
    noAdjB y = true := by
  induction x with
  | nil => exact h
  | cons c x2 ih => exact ih (noAdjB_cons c (x2 ++ y) h)

theorem noAdjB_append_left (x y : Str) (h : noAdjB (x ++ y) = true) :
    noAdjB x = true := by
  induction x with
  | nil => rfl
  | cons c x2 ih =>
    cases x2 with
    | nil => rfl
    | cons c2 x3 =>
      have hne : ¬ (c = '{' ∧ c2 = '}') := by
        intro hcc
        have : noAdjB (c :: c2 :: (x3 ++ y)) = false := by
          simp only [noAdjB, if_pos hcc]
        rw [List.cons_append, List.cons_append] at h
        rw [this] at h
        exact absurd h (by simp)
      have h2 : noAdjB ((c2 :: x3) ++ y) = true := by
        rw [List.cons_append, List.cons_append] at h
        simp only [noAdjB, if_neg hne] at h
        exact h
      have := ih h2
      simp only [noAdjB, if_neg hne]
      exact this

theorem noAdjB_grp (a s : Str) (h : noAdjB ('{' :: a ++ '}' :: s) = true) :
    noAdjB a = true ∧ noAdjB s = true ∧ a ≠ [] := by
  refine ⟨?_, ?_, ?_⟩
  · have h1 : noAdjB ('{' :: a) = true := by
      have : '{' :: a ++ '}' :: s = ('{' :: a) ++ ('}' :: s) := by simp
      rw [this] at h
      exact noAdjB_append_left _ _ h
    exact noAdjB_cons _ _ h1
  · have h1 : noAdjB ('}' :: s) = true := by
      have : '{' :: a ++ '}' :: s = ('{' :: a) ++ ('}' :: s) := by simp
      rw [this] at h
      exact noAdjB_append_right _ _ h
    exact noAdjB_cons _ _ h1
  · intro he
    subst he
    simp [noAdjB] at h

theorem flattenKids_append (incl : Bool) (k1 k2 : List BraceNode) :
    flattenKids incl (k1 ++ k2) =
      flattenKids incl k1 ++ flattenKids incl k2 := by
  induction k1 with
  | nil => simp [flattenKids]
  | cons k ks ih => simp [flattenKids, ih]

theorem flattenKids_saveK (incl : Bool) (kids : List BraceNode) (accum : Str) :
    flattenKids incl (saveK kids accum) = flattenKids incl kids ++ accum := by
  unfold saveK
  by_cases h : accum.isEmpty
  · rw [if_pos h]
    have : accum = [] := by
      cases accum with
      | nil => rfl
      | cons a b => simp [List.isEmpty] at h
    simp [this]
  · rw [if_neg h, flattenKids_append]
    simp [flattenKids, flattenN]

theorem flattenN_internal (incl : Bool) (kids : List BraceNode) (leaf : Str)
    (h : kids ≠ []) :
    flattenN false incl (BraceNode.mk kids leaf) =
      if incl then '{' :: flattenKids incl kids ++ ['}']
      else flattenKids incl kids := by
  cases kids with
  | nil => exact absurd rfl h
  | cons k ks => simp [flattenN]

theorem flattenN_root (incl : Bool) (kids : List BraceNode) :
    flattenN true incl (BraceNode.mk kids []) = flattenKids incl kids := by
  cases kids with
  | nil => simp [flattenN, flattenKids]
  | cons k ks => simp [flattenN]

theorem parse_group (u : Str) (hu : Bal u) :
    ∀ (fuel : Nat) (v accum : Str) (kids : List BraceNode),
      (u ++ '}' :: v).length ≤ fuel →
      ∃ ks2,
        parseRecF fuel (u ++ '}' :: v) accum kids =
          (BraceNode.mk ks2 [], u.length + 1) ∧
        (noAdjB u = true →
          flattenKids true ks2 = flattenKids true kids ++ accum ++ u) := by
  induction hu with
  | nil =>
    intro fuel v accum kids hle
    cases fuel with
    | zero => simp at hle
    | succ f =>
      refine ⟨saveK kids accum, ?_, ?_⟩
      · show parseRecF (f + 1) ('}' :: v) accum kids = _
        simp [parseRecF]
      · intro _
        rw [flattenKids_saveK]
        simp
  | chr c s hc1 hc2 _ ih =>
    intro fuel v accum kids hle
    cases fuel with
    | zero => simp at hle
    | succ f =>
      obtain ⟨ks2, hp, hf⟩ := ih f v (accum ++ [c]) kids (by simp at hle ⊢; omega)
      refine ⟨ks2, ?_, ?_⟩
      · show parseRecF (f + 1) (c :: (s ++ '}' :: v)) accum kids = _
        simp only [parseRecF, if_neg hc1, if_neg hc2, hp]
        simp [List.length_cons]
      · intro hna
        rw [hf (noAdjB_cons c s hna)]
        simp
  | grp a s hba hbs iha ihs =>
    intro fuel v accum kids hle
    cases fuel with
    | zero => simp at hle
    | succ f =>
      have hshape : ('{' :: a ++ '}' :: s) ++ '}' :: v =
          '{' :: (a ++ '}' :: (s ++ '}' :: v)) := by simp
      obtain ⟨ksa, hpa, hfa⟩ := iha f (s ++ '}' :: v) [] []
        (by simp at hle ⊢; omega)
      have hdrop : (a ++ '}' :: (s ++ '}' :: v)).drop (a.length + 1) =
          s ++ '}' :: v := by
        rw [show a.length + 1 = (a ++ ['}']).length by simp,
          show a ++ '}' :: (s ++ '}' :: v) = (a ++ ['}']) ++ (s ++ '}' :: v)
            by simp]
        exact List.drop_left _ _
      obtain ⟨kss, hps, hfs⟩ := ihs f v []
        (saveK kids accum ++ [BraceNode.mk ksa []]) (by simp at hle ⊢; omega)
      refine ⟨kss, ?_, ?_⟩
      · rw [hshape]
        show parseRecF (f + 1) ('{' :: (a ++ '}' :: (s ++ '}' :: v)))
          accum kids = _
        simp only [parseRecF, if_pos rfl, hpa, hdrop, hps]
        simp
        omega
      · intro hna
        obtain ⟨hna1, hna2, hane⟩ := noAdjB_grp a s hna
        have hksa : flattenKids true ksa = a := by simpa using hfa hna1
        have hksane : ksa ≠ [] := by
          intro he
          rw [he] at hksa
          exact hane (by simpa [flattenKids] using hksa.symm)
        rw [hfs hna2, List.append_nil, flattenKids_append, flattenKids_saveK]
        have hchild : flattenKids true [BraceNode.mk ksa []] =
            '{' :: a ++ ['}'] := by
          simp [flattenKids, flattenN_internal true ksa [] hksane, hksa]
        rw [hchild]
        simp

theorem parse_top (s : Str) (hs : Bal s) :
    ∀ (fuel : Nat) (accum : Str) (kids : List BraceNode),
      s.length ≤ fuel →
      ∃ ks2,
        parseRecF fuel s accum kids = (BraceNode.mk ks2 [], s.length) ∧
        (noAdjB s = true →
          flattenKids true ks2 = flattenKids true kids ++ accum ++ s) := by
  induction hs with
  | nil =>
    intro fuel accum kids _
    refine ⟨saveK kids accum, ?_, ?_⟩
    · cases fuel <;> simp [parseRecF]
    · intro _
      rw [flattenKids_saveK]
      simp
  | chr c s hc1 hc2 _ ih =>
    intro fuel accum kids hle
    cases fuel with
    | zero => simp at hle
    | succ f =>
      obtain ⟨ks2, hp, hf⟩ := ih f (accum ++ [c]) kids (by simp at hle; omega)
      refine ⟨ks2, ?_, ?_⟩
      · show parseRecF (f + 1) (c :: s) accum kids = _
        simp only [parseRecF, if_neg hc1, if_neg hc2, hp]
        simp
      · intro hna
        rw [hf (noAdjB_cons c s hna)]
        simp
  | grp a s hba hbs iha ihs =>
    intro fuel accum kids hle
    cases fuel with
    | zero => simp at hle
    | succ f =>
      obtain ⟨ksa, hpa, hfa⟩ := parse_group a hba f s [] []
        (by simp at hle ⊢; omega)
      have hdrop : (a ++ '}' :: s).drop (a.length + 1) = s := by
        rw [show a.length + 1 = (a ++ ['}']).length by simp,
          show a ++ '}' :: s = (a ++ ['}']) ++ s by simp]
        exact List.drop_left _ _
      obtain ⟨kss, hps, hfs⟩ := ihs f []
        (saveK kids accum ++ [BraceNode.mk ksa []]) (by simp at hle; omega)
      refine ⟨kss, ?_, ?_⟩
      · show parseRecF (f + 1) ('{' :: (a ++ '}' :: s)) accum kids = _
        simp only [parseRecF, if_pos rfl, hpa, hdrop, hps]
        simp
        omega
      · intro hna
        obtain ⟨hna1, hna2, hane⟩ := noAdjB_grp a s hna
        have hksa : flattenKids true ksa = a := by simpa using hfa hna1
        have hksane : ksa ≠ [] := by
          intro he
          rw [he] at hksa
          exact hane (by simpa [flattenKids] using hksa.symm)
        rw [hfs hna2, List.append_nil, flattenKids_append, flattenKids_saveK]
        have hchild : flattenKids true [BraceNode.mk ksa []] =
            '{' :: a ++ ['}'] := by
          simp [flattenKids, flattenN_internal true ksa [] hksane, hksa]
        rw [hchild]
        simp

theorem getElem_markPubs (pubs : List Entry) (p : Nat → Bool) (i : Nat)
    (h : i < (markPubs pubs p).length) :
    (markPubs pubs p)[i] =
      if p i then markDel (getE pubs i) else getE pubs i := by
  simp [markPubs]

theorem filter_markPubs (pubs : List Entry) (p : Nat → Bool)
    (h : ∀ e ∈ pubs, e.kind ≠ .deleted) :
    ((markPubs pubs p).filter fun e => e.kind ≠ .deleted) =
      ((List.range pubs.length).filter fun i => ! p i).map (getE pubs) := by
  unfold markPubs
  rw [List.filter_map]
  have hfc : ((List.range pubs.length).filter
      ((fun e => decide (e.kind ≠ EntryKind.deleted)) ∘ fun i =>
        if p i then markDel (getE pubs i) else getE pubs i)) =
      ((List.range pubs.length).filter fun i => ! p i) := by
    apply List.filter_congr
    intro i hi
    have hiv : i < pubs.length := List.mem_range.mp hi
    by_cases hp : p i
    · simp [hp, Function.comp, markDel]
    · simp [hp, Function.comp, h (getE pubs i) (getE_mem pubs i hiv)]
  rw [hfc]
  apply List.map_congr_left
  intro i hi
  have hp : p i = false := by
    have := (List.mem_filter.mp hi).2
    simpa using this
  simp [hp]

theorem removeExactDups_eq (db : Database)
    (h : ∀ e ∈ db.pubs, e.kind ≠ .deleted) :
    removeExactDups db = some { db with pubs := survivorsSpec db.pubs } := by
  have hcov : ∀ i, i < db.pubs.length →
      lowerKeyE (getE db.pubs i) ∈ binKeys db.pubs := by
    intro i hi
    rw [binKeys, List.mem_dedup]
    exact List.mem_map.mpr ⟨getE db.pubs i, getE_mem db.pubs i hi, rfl⟩
  obtain ⟨ra, rb, rc, rd⟩ :=
    binsFold_spec db.pubs h (binKeys db.pubs) db.pubs 0 rfl
      (List.nodup_dedup _) (fun i _ _ => rfl)
  unfold removeExactDups
  set st := ((binKeys db.pubs).map (keyBin db.pubs)).foldl
    (fun st bin => exactBinLoop bin st) (db.pubs, 0) with hst
  have hpt : ∀ i, i < db.pubs.length →
      getE st.1 i = if hasLaterExactDup db.pubs i then markDel (getE db.pubs i)
        else getE db.pubs i :=
    fun i hi => rb i hi (hcov i hi)
  have hmark : st.1 = markPubs db.pubs (hasLaterExactDup db.pubs) := by
    apply List.ext_getElem
    · rw [ra, length_markPubs]
    · intro i h1 h2
      have hi : i < db.pubs.length := by rw [ra] at h1; exact h1
      rw [← getE_eq_getElem st.1 i h1, hpt i hi, getElem_markPubs]
  have hzero : countDel db.pubs = 0 := countDel_eq_zero db.pubs h
  have hcnt : st.2 = countDel st.1 := by omega
  have hfil : (st.1.filter fun e => e.kind ≠ .deleted) =
      survivorsSpec db.pubs := by
    rw [hmark, filter_markPubs db.pubs _ h]
    rfl
  have hpart : (st.1.filter fun e => e.kind ≠ .deleted).length +
      countDel st.1 = st.1.length := by
    have := filter_partition_length st.1 fun e => decide (e.kind = .deleted)
    have hsw : (st.1.filter fun e => e.kind ≠ .deleted) =
        st.1.filter fun e => ! decide (e.kind = .deleted) := by
      apply List.filter_congr
      intro e _
      simp [decide_not]
    rw [hsw, countDel]
    omega
  have hrd : removeDeleted st.1 st.2 =
      some (st.1.filter fun e => e.kind ≠ .deleted) := by
    unfold removeDeleted
    rw [if_pos]
    omega
  show Option.map (fun ps => Database.mk ps db.symbols db.preamble)
      (removeDeleted st.1 st.2) =
    some (Database.mk (survivorsSpec db.pubs) db.symbols db.preamble)
  rw [hrd, hfil]
  rfl

theorem getD_str_eq_getElem (l : List Str) (i : Nat) (h : i < l.length) :
    l.getD i [] = l[i] := by
  rw [List.getD_eq_getElem?_getD, List.getElem?_eq_getElem h]
  rfl

theorem range_rev_succ (n : Nat) :
    (List.range (n + 1)).reverse = n :: (List.range n).reverse := by
  rw [List.range_succ]
  simp

theorem find_rev_some (n : Nat) (p : Nat → Bool) (j : Nat)
    (h : (List.range n).reverse.find? p = some j) :
    p j = true ∧ j < n ∧ ∀ k, j < k → k < n → p k = false := by
  induction n with
  | zero => simp [List.range_zero] at h
  | succ n ih =>
    rw [range_rev_succ] at h
    by_cases hp : p n = true
    · rw [List.find?_cons_of_pos _ hp] at h
      obtain rfl : n = j := by simpa using h
      exact ⟨hp, Nat.lt_succ_self n, fun k h1 h2 => by omega⟩
    · rw [List.find?_cons_of_neg _ hp] at h
      obtain ⟨q1, q2, q3⟩ := ih h
      refine ⟨q1, by omega, fun k h1 h2 => ?_⟩
      rcases Nat.lt_or_ge k n with hk | hk
      · exact q3 k h1 hk
      · have : k = n := by omega
        subst this
        simpa using hp

theorem find_rev_none (n : Nat) (p : Nat → Bool)
    (h : (List.range n).reverse.find? p = none) :
    ∀ k, k < n → p k = false := by
  induction n with
  | zero => intro k hk; omega
  | succ n ih =>
    rw [range_rev_succ] at h
    by_cases hp : p n = true
    · rw [List.find?_cons_of_pos _ hp] at h
      simp at h
    · rw [List.find?_cons_of_neg _ hp] at h
      intro k hk
      rcases Nat.lt_or_ge k n with h1 | h1
      · exact ih h k h1
      · have : k = n := by omega
        subst this
        simpa using hp

theorem find_rev_eq_some (n : Nat) (p : Nat → Bool) (j : Nat)
    (h1 : j < n) (h2 : p j = true) (h3 : ∀ k, j < k → k < n → p k = false) :
    (List.range n).reverse.find? p = some j := by
  induction n with
  | zero => omega
  | succ n ih =>
    rw [range_rev_succ]
    by_cases he : j = n
    · subst he
      rw [List.find?_cons_of_pos _ h2]
    · have hjn : j < n := by omega
      have hpn : ¬ p n = true := by
        rw [h3 n hjn (Nat.lt_succ_self n)]
        simp
      rw [List.find?_cons_of_neg _ hpn]
      exact ih hjn (fun k ha hb => h3 k ha (by omega))

theorem parseVon_big (w1 w2 : Str) (rest : List Str) :
    parseVon (w1 :: w2 :: rest) =
      match (List.range ((w1 :: w2 :: rest).length - 1)).reverse.find?
          (fun j => isLowerInitial ((w1 :: w2 :: rest).getD j [])) with
      | some j => some (joinSp ((w1 :: w2 :: rest).take (j + 1)),
          joinSp ((w1 :: w2 :: rest).drop (j + 1)))
      | none => some ([], joinSp (w1 :: w2 :: rest)) := rfl

theorem parseVon_spec (ws : List Str) (h : ws ≠ []) :
    ∃ vw lw, ws = vw ++ lw ∧ lw ≠ [] ∧
      parseVon ws = some (joinSp vw, joinSp lw) ∧
      (∀ w, vw.getLast? = some w → isLowerInitial w = true) ∧
      (∀ w ∈ lw.dropLast, isLowerInitial w = false) := by
  match ws with
  | [] => exact absurd rfl h
  | [w] =>
    refine ⟨[], [w], rfl, by simp, rfl, ?_, ?_⟩
    · intro w2 hw2; simp at hw2
    · intro w2 hw2; simp at hw2
  | w1 :: w2 :: rest =>
    set ws2 := w1 :: w2 :: rest with hws2
    have hlen : 2 ≤ ws2.length := by simp [hws2]
    cases hfind : (List.range (ws2.length - 1)).reverse.find?
        (fun j => isLowerInitial (ws2.getD j [])) with
    | some j =>
      obtain ⟨q1, q2, q3⟩ := find_rev_some _ _ j hfind
      have hj : j < ws2.length := by omega
      refine ⟨ws2.take (j + 1), ws2.drop (j + 1), (List.take_append_drop _ _).symm,
        ?_, ?_, ?_, ?_⟩
      · intro hnil
        have := congrArg List.length hnil
        simp [List.length_drop] at this
        omega
      · rw [parseVon_big, hfind]
      · intro w hw
        have hlt : (ws2.take (j + 1)).length = j + 1 := by
          rw [List.length_take]
          omega
        rw [List.getLast?_eq_getElem?, hlt] at hw
        simp only [Nat.add_sub_cancel] at hw
        rw [List.getElem?_take, if_pos (Nat.lt_succ_self j)] at hw
        rw [List.getElem?_eq_getElem hj] at hw
        have hwv : w = ws2[j] := by simpa using hw.symm
        rw [hwv, ← getD_str_eq_getElem ws2 j hj]
        exact q1
      · intro w hw
        obtain ⟨i, hi, hie⟩ := List.mem_iff_getElem.mp hw
        have hi2 : i < ws2.length - (j + 1) - 1 := by
          simpa [List.length_dropLast, List.length_drop] using hi
        have hidx : j + 1 + i < ws2.length := by omega
        have : w = ws2[j + 1 + i] := by
          rw [← hie, List.getElem_dropLast, List.getElem_drop]
        rw [this, ← getD_str_eq_getElem ws2 _ hidx]
        exact q3 (j + 1 + i) (by omega) (by omega)
    | none =>
      have hall := find_rev_none _ _ hfind
      refine ⟨[], ws2, rfl, by simp [hws2], ?_, ?_, ?_⟩
      · rw [parseVon_big, hfind]
        rfl
      · intro w hw; simp at hw
      · intro w hw
        obtain ⟨i, hi, hie⟩ := List.mem_iff_getElem.mp hw
        have hi2 : i < ws2.length - 1 := by
          simpa [List.length_dropLast] using hi
        have hidx : i < ws2.length := by omega
        have : w = ws2[i] := by rw [← hie, List.getElem_dropLast]
        rw [this, ← getD_str_eq_getElem ws2 _ hidx]
        exact hall i hi2

theorem parseVon_recompose (vw lw : List Str)
    (hlw : lw ≠ [])
    (hv1 : ∀ w, vw.getLast? = some w → isLowerInitial w = true)
    (hv2 : ∀ w ∈ lw.dropLast, isLowerInitial w = false) :
    parseVon (vw ++ lw) = some (joinSp vw, joinSp lw) := by
  rcases vw with _ | ⟨v1, vrest⟩
  · rcases lw with _ | ⟨w, lrest⟩
    · exact absurd rfl hlw
    · rcases lrest with _ | ⟨w2, lrest2⟩
      · rfl
      · rw [List.nil_append, parseVon_big]
        have hnone : (List.range ((w :: w2 :: lrest2).length - 1)).reverse.find?
            (fun j => isLowerInitial ((w :: w2 :: lrest2).getD j [])) = none := by
          rcases hfind : (List.range ((w :: w2 :: lrest2).length - 1)).reverse.find?
              (fun j => isLowerInitial ((w :: w2 :: lrest2).getD j [])) with _ | j
          · rfl
          · obtain ⟨q1, q2, _⟩ := find_rev_some _ _ j hfind
            have hjl : j < (w :: w2 :: lrest2).length := by omega
            have hmem : (w :: w2 :: lrest2)[j] ∈
                (w :: w2 :: lrest2).dropLast := by
              have hdl : j < ((w :: w2 :: lrest2).dropLast).length := by
                simpa [List.length_dropLast] using q2
              have := List.getElem_mem hdl
              rwa [List.getElem_dropLast] at this
            have := hv2 _ hmem
            rw [getD_str_eq_getElem _ j hjl] at q1
            rw [q1] at this
            exact absurd this (by simp)
        rw [hnone]
        rfl
  · have hlen1 : 0 < lw.length := List.length_pos.mpr hlw
    rcases hu : vrest ++ lw with _ | ⟨u2, urest⟩
    · exfalso
      cases hvr : vrest with
      | nil =>
        rw [hvr] at hu
        simp at hu
        exact hlw hu
      | cons a b =>
        rw [hvr] at hu
        simp at hu
    · have hws2 : (v1 :: vrest) ++ lw = v1 :: u2 :: urest := by
        rw [List.cons_append, hu]
      have hj0n : (v1 :: vrest).length - 1 <
          ((v1 :: vrest) ++ lw).length - 1 := by
        simp only [List.length_append, List.length_cons]
        omega
      have hj0v : (v1 :: vrest).length - 1 < (v1 :: vrest).length := by
        simp
      have hp0 : isLowerInitial
          (((v1 :: vrest) ++ lw).getD ((v1 :: vrest).length - 1) []) = true := by
        have hj0w : (v1 :: vrest).length - 1 < ((v1 :: vrest) ++ lw).length := by
          simp only [List.length_append]
          omega
        rw [getD_str_eq_getElem _ _ hj0w]
        have he : ((v1 :: vrest) ++ lw)[(v1 :: vrest).length - 1] =
            (v1 :: vrest)[(v1 :: vrest).length - 1] :=
          List.getElem_append_left hj0v
        rw [he]
        apply hv1
        rw [List.getLast?_eq_getElem?, List.getElem?_eq_getElem hj0v]
      have hrest : ∀ k, (v1 :: vrest).length - 1 < k →
          k < ((v1 :: vrest) ++ lw).length - 1 →
          isLowerInitial (((v1 :: vrest) ++ lw).getD k []) = false := by
        intro k h1 h2
        have hkw : k < ((v1 :: vrest) ++ lw).length := by omega
        rw [getD_str_eq_getElem _ _ hkw]
        have hkv : (v1 :: vrest).length ≤ k := by
          simp only [List.length_cons] at h1 ⊢
          omega
        have hkl : k - (v1 :: vrest).length < lw.length - 1 := by
          simp only [List.length_append] at h2
          omega
        have hlt : k - (v1 :: vrest).length < lw.length := by omega
        have hke : ((v1 :: vrest) ++ lw)[k] =
            lw[k - (v1 :: vrest).length] :=
          List.getElem_append_right hkv
        rw [hke]
        apply hv2
        have hdl : k - (v1 :: vrest).length < (lw.dropLast).length := by
          simpa [List.length_dropLast] using hkl
        have := List.getElem_mem hdl
        rwa [List.getElem_dropLast] at this
      have hfind := find_rev_eq_some (((v1 :: vrest) ++ lw).length - 1) _
        ((v1 :: vrest).length - 1) hj0n hp0 hrest
      rw [hws2, parseVon_big, ← hws2, hfind]
      have hj1 : (v1 :: vrest).length - 1 + 1 = (v1 :: vrest).length := by
        simp
      have htake : ((v1 :: vrest) ++ lw).take ((v1 :: vrest).length - 1 + 1) =
          v1 :: vrest := by
        rw [hj1, List.take_left]
      have hdrop : ((v1 :: vrest) ++ lw).drop ((v1 :: vrest).length - 1 + 1) =
          lw := by
        rw [hj1, List.drop_left]
      show some (joinSp (((v1 :: vrest) ++ lw).take ((v1 :: vrest).length - 1 + 1)),
          joinSp (((v1 :: vrest) ++ lw).drop ((v1 :: vrest).length - 1 + 1))) =
        some (joinSp (v1 :: vrest), joinSp lw)
      rw [htake, hdrop]

theorem plain_spec (c : Char) (h : plainChar c = true) :
    c.isWhitespace = false ∧ c ≠ '{' ∧ c ≠ '}' ∧ c ≠ '"' ∧ c ≠ ',' := by
  rw [plainChar] at h
  simp only [decide_eq_true_eq] at h
  push_neg at h
  refine ⟨?_, h.2.1, h.2.2.1, h.2.2.2.1, h.2.2.2.2⟩
  simpa using h.1

theorem toLower_comma (c : Char) (h : Char.toLower c = ',') : c = ',' := by
  simp only [Char.toLower] at h
  by_cases hc : c.toNat ≥ 65 ∧ c.toNat ≤ 90
  · exfalso
    rw [if_pos hc] at h
    have hval : Nat.isValidChar (c.toNat + 32) := Or.inl (by omega)
    have hv := congrArg Char.toNat h
    rw [Char.ofNat, dif_pos hval] at hv
    simp only [Char.ofNatAux, Char.toNat, UInt32.toNat, BitVec.toNat_ofNatLt] at hv
    have h44 : (','.val.toBitVec.toNat) = 44 := rfl
    simp only [Char.toNat, UInt32.toNat] at hc
    omega
  · rwa [if_neg hc] at h

theorem joinSp_cons (w : Str) (r : List Str) (h : r ≠ []) :
    joinSp (w :: r) = w ++ ' ' :: joinSp r := by
  cases r with
  | nil => exact absurd rfl h
  | cons a b => rfl

theorem joinSp_append (vw lw : List Str) (h1 : vw ≠ []) (h2 : lw ≠ []) :
    joinSp (vw ++ lw) = joinSp vw ++ ' ' :: joinSp lw := by
  induction vw with
  | nil => exact absurd rfl h1
  | cons v vt ih =>
    cases vt with
    | nil =>
      rw [List.cons_append, List.nil_append, joinSp_cons v lw h2]
      rfl
    | cons v2 vt2 =>
      rw [List.cons_append, joinSp_cons v ((v2 :: vt2) ++ lw) (by simp),
        joinSp_cons v (v2 :: vt2) (by simp), ih (by simp)]
      simp

theorem mem_joinSp (ws : List Str) (c : Char) (h : c ∈ joinSp ws) :
    c = ' ' ∨ ∃ w ∈ ws, c ∈ w := by
  induction ws with
  | nil => simp [joinSp] at h
  | cons w r ih =>
    cases r with
    | nil => exact Or.inr ⟨w, by simp, h⟩
    | cons a b =>
      rw [joinSp_cons w (a :: b) (by simp)] at h
      rcases List.mem_append.mp h with h1 | h2
      · exact Or.inr ⟨w, by simp, h1⟩
      · rcases List.mem_cons.mp h2 with he | h3
        · exact Or.inl he
        · rcases ih h3 with hs | ⟨w2, hw2, hc2⟩
          · exact Or.inl hs
          · exact Or.inr ⟨w2, List.mem_cons_of_mem w hw2, hc2⟩

theorem joinSp_ne_nil (w : Str) (r : List Str) (hw : w ≠ []) :
    joinSp (w :: r) ≠ [] := by
  cases r with
  | nil => exact hw
  | cons a b =>
    rw [joinSp_cons w (a :: b) (by simp)]
    cases w with
    | nil => simp
    | cons c t => simp

theorem head?_append_of_ne_nil (x y : Str) (h : x ≠ []) :
    (x ++ y).head? = x.head? := by
  cases x with
  | nil => exact absurd rfl h
  | cons c t => rfl

theorem getLast?_append_right (a b : Str) (h : b ≠ []) :
    (a ++ b).getLast? = b.getLast? := by
  rw [← List.head?_reverse, ← List.head?_reverse, List.reverse_append]
  exact head?_append_of_ne_nil _ _ (by simpa using h)

theorem head?_joinSp (w : Str) (r : List Str) (hw : w ≠ []) :
    (joinSp (w :: r)).head? = w.head? := by
  cases r with
  | nil => rfl
  | cons a b =>
    rw [joinSp_cons w (a :: b) (by simp)]
    exact head?_append_of_ne_nil _ _ hw

theorem getLast?_joinSp (ws : List Str) (hne : ws ≠ [])
    (hall : ∀ w ∈ ws, w ≠ []) :
    ∃ w ∈ ws, (joinSp ws).getLast? = w.getLast? := by
  induction ws with
  | nil => exact absurd rfl hne
  | cons w r ih =>
    cases r with
    | nil => exact ⟨w, by simp, rfl⟩
    | cons a b =>
      obtain ⟨w2, hw2, he⟩ := ih (by simp)
        (fun u hu => hall u (List.mem_cons_of_mem w hu))
      refine ⟨w2, List.mem_cons_of_mem w hw2, ?_⟩
      rw [joinSp_cons w (a :: b) (by simp),
        getLast?_append_right _ _ (by simp),
        show (' ' :: joinSp (a :: b)) = [' '] ++ joinSp (a :: b) from rfl,
        getLast?_append_right _ _
          (joinSp_ne_nil a b (hall a (by simp))), he]

theorem mem_of_head? (w : Str) (c : Char) (h : w.head? = some c) : c ∈ w := by
  cases w with
  | nil => simp at h
  | cons a t =>
    simp only [List.head?_cons, Option.some.injEq] at h
    rw [← h]
    exact List.mem_cons_self a t

theorem mem_of_getLast? (w : Str) (c : Char) (h : w.getLast? = some c) :
    c ∈ w := by
  rw [← List.head?_reverse] at h
  have := mem_of_head? w.reverse c h
  simpa using this

theorem trimList_eq_self (x : Str)
    (hh : ∀ c, x.head? = some c → isSpace c = false)
    (hl : ∀ c, x.getLast? = some c → isSpace c = false) :
    trimList x = x := by
  have h1 : x.dropWhile isSpace = x := by
    cases x with
    | nil => rfl
    | cons c t =>
      rw [List.dropWhile_cons_of_neg]
      simp [hh c rfl]
  have h2 : x.reverse.dropWhile isSpace = x.reverse := by
    cases hx : x.reverse with
    | nil => rfl
    | cons c t =>
      rw [List.dropWhile_cons_of_neg]
      have hc : x.getLast? = some c := by
        rw [← List.head?_reverse, hx]
        rfl
      simp [hl c hc]
  rw [trimList, h1, h2, List.reverse_reverse]

theorem trimList_cons_space (x : Str) : trimList (' ' :: x) = trimList x := by
  rw [trimList, trimList,
    show (' ' :: x).dropWhile isSpace = x.dropWhile isSpace from
      List.dropWhile_cons_of_pos (by decide)]

theorem length_dropWhile_le (p : Char → Bool) (l : Str) :
    (l.dropWhile p).length ≤ l.length :=
  (List.dropWhile_sublist p).length_le

theorem trim_self_head (x : Str) (h : trimList x = x) :
    ∀ c, x.head? = some c → isSpace c = false := by
  intro c hc
  by_contra hsp
  have hsp2 : isSpace c = true := by simpa using hsp
  cases x with
  | nil => simp at hc
  | cons c0 t =>
    have hc0 : c0 = c := by simpa using hc
    have h1 : (c0 :: t).dropWhile isSpace = t.dropWhile isSpace :=
      List.dropWhile_cons_of_pos (hc0 ▸ hsp2)
    have h2 : (trimList (c0 :: t)).length ≤ t.length := by
      rw [trimList, h1]
      calc ((t.dropWhile isSpace).reverse.dropWhile isSpace).reverse.length
          = ((t.dropWhile isSpace).reverse.dropWhile isSpace).length := by
            rw [List.length_reverse]
        _ ≤ (t.dropWhile isSpace).reverse.length := length_dropWhile_le _ _
        _ = (t.dropWhile isSpace).length := by rw [List.length_reverse]
        _ ≤ t.length := length_dropWhile_le _ _
    rw [h] at h2
    simp at h2

theorem trim_self_getLast (x : Str) (h : trimList x = x) :
    ∀ c, x.getLast? = some c → isSpace c = false := by
  intro c hc
  by_contra hsp
  have hsp2 : isSpace c = true := by simpa using hsp
  have hxne : x ≠ [] := by
    intro he
    rw [he] at hc
    simp at hc
  by_cases hcase : x.dropWhile isSpace = []
  · have hnil : trimList x = [] := by
      rw [trimList, hcase]
      rfl
    rw [h] at hnil
    exact hxne hnil
  · obtain ⟨t, ht⟩ : List.IsSuffix (x.dropWhile isSpace) x :=
      List.dropWhile_suffix isSpace
    have hly : (x.dropWhile isSpace).getLast? = some c := by
      rw [← hc]
      conv_rhs => rw [← ht]
      rw [getLast?_append_right _ _ hcase]
    cases hyr : (x.dropWhile isSpace).reverse with
    | nil => simp [List.reverse_eq_nil_iff.mp hyr] at hcase
    | cons c1 z =>
      have hc1 : c1 = c := by
        have := List.head?_reverse (x.dropWhile isSpace)
        rw [hyr, hly] at this
        simpa using this
      subst hc1
      have hlen : (trimList x).length ≤ z.length := by
        rw [trimList, hyr, List.dropWhile_cons_of_pos hsp2]
        rw [List.length_reverse]
        exact length_dropWhile_le _ _
      have hzlen : z.length + 1 = (x.dropWhile isSpace).length := by
        have := congrArg List.length hyr
        simp at this
        omega
      have hdw : (x.dropWhile isSpace).length ≤ x.length :=
        length_dropWhile_le _ _
      rw [h] at hlen
      omega

theorem hasTopQuoteGo_false (s : Str) (h : ∀ c ∈ s, c ≠ '"') :
    ∀ nb, hasTopQuoteGo s nb = false := by
  induction s with
  | nil => intro nb; rfl
  | cons c t ih =>
    intro nb
    have hc : c ≠ '"' := h c (List.mem_cons_self c t)
    have iht := fun nb => ih (fun u hu => h u (List.mem_cons_of_mem c hu)) nb
    by_cases h1 : c = '{'
    · simp only [hasTopQuoteGo, if_pos h1]
      exact iht _
    · by_cases h2 : c = '}'
      · simp only [hasTopQuoteGo, if_neg h1, if_pos h2]
        exact iht _
      · simp only [hasTopQuoteGo, if_neg h1, if_neg h2,
          if_neg (by simp [hc] : ¬ (c = '"' ∧ nb = 0))]
        exact iht _

theorem quoteName_id (s : Str) (h : ∀ c ∈ s, c ≠ '"') : quoteName s = s := by
  rw [quoteName, hasTopQuoteGo_false s h 0]
  rfl

theorem splitTLGo_word (w : Str) (hw : ∀ c ∈ w, plainChar c = true) :
    ∀ (tail word : Str) (words : List Str),
      splitTLGo (w ++ tail) 0 word words = splitTLGo tail 0 (word ++ w) words := by
  induction w with
  | nil => intro tail word words; simp
  | cons c wt ih =>
    intro tail word words
    obtain ⟨hs, hb1, hb2, _, _⟩ := plain_spec c (hw c (List.mem_cons_self c wt))
    show splitTLGo (c :: (wt ++ tail)) 0 word words = _
    simp only [splitTLGo, if_neg hb1, if_neg hb2]
    rw [if_neg (by simp [isSpace, hs])]
    rw [ih (fun u hu => hw u (List.mem_cons_of_mem c hu)) tail (word ++ [c]) words]
    simp

theorem splitTLGo_space (tail word : Str) (words : List Str) (hw : word ≠ []) :
    splitTLGo (' ' :: tail) 0 word words =
      splitTLGo tail 0 [] (words ++ [word]) := by
  simp only [splitTLGo]
  rw [if_neg (by decide : ¬ (' ' = '{')), if_neg (by decide : ¬ (' ' = '}'))]
  rw [if_pos (by simp [isSpace] : (0 : Int) = 0 ∧ isSpace ' ' = true)]
  rw [if_neg (by simpa using hw)]

theorem splitTLGo_join (ws : List Str) (h : ∀ w ∈ ws, goodWord w) :
    ∀ words, splitTLGo (joinSp ws) 0 [] words = words ++ ws := by
  induction ws with
  | nil => intro words; simp [joinSp, splitTLGo]
  | cons w r ih =>
    intro words
    obtain ⟨hwne, hwp⟩ := h w (List.mem_cons_self w r)
    cases r with
    | nil =>
      show splitTLGo (joinSp [w]) 0 [] words = words ++ [w]
      have : joinSp [w] = w ++ [] := by simp [joinSp]
      rw [this, splitTLGo_word w hwp [] [] words]
      simp [splitTLGo, hwne]
    | cons a b =>
      rw [joinSp_cons w (a :: b) (by simp),
        splitTLGo_word w hwp (' ' :: joinSp (a :: b)) [] words,
        List.nil_append,
        splitTLGo_space (joinSp (a :: b)) w words hwne,
        ih (fun u hu => h u (List.mem_cons_of_mem w hu)) (words ++ [w])]
      simp

theorem splitTL_joinSp (ws : List Str) (h : ∀ w ∈ ws, goodWord w) :
    splitTL (joinSp ws) = ws := by
  cases ws with
  | nil => rfl
  | cons w r =>
    have hone : ∀ u ∈ w :: r, u ≠ [] := fun u hu => (h u hu).1
    have htr : trimList (joinSp (w :: r)) = joinSp (w :: r) := by
      apply trimList_eq_self
      · intro c hc
        rw [head?_joinSp w r (hone w (by simp))] at hc
        have hcw : c ∈ w := mem_of_head? w c hc
        obtain ⟨hs, _, _, _, _⟩ := plain_spec c ((h w (by simp)).2 c hcw)
        simpa [isSpace] using hs
      · intro c hc
        obtain ⟨w2, hw2, he⟩ := getLast?_joinSp (w :: r) (by simp) hone
        rw [he] at hc
        have hcw : c ∈ w2 := mem_of_getLast? w2 c hc
        obtain ⟨hs, _, _, _, _⟩ := plain_spec c ((h w2 hw2).2 c hcw)
        simpa [isSpace] using hs
    rw [splitTL, htr, splitTLGo_join (w :: r) h []]
    simp

theorem commaSplit_no_comma (x : Str) (h : ∀ c ∈ x, c ≠ ',') :
    commaSplit x = [x] := by
  induction x with
  | nil => rfl
  | cons c t ih =>
    have hc := h c (List.mem_cons_self c t)
    have iht := ih (fun u hu => h u (List.mem_cons_of_mem c hu))
    simp only [commaSplit, if_neg hc, iht]

theorem commaSplit_append (x y : Str) (h : ∀ c ∈ x, c ≠ ',') :
    commaSplit (x ++ ',' :: y) = x :: commaSplit y := by
  induction x with
  | nil =>
    simp [commaSplit]
  | cons c t ih =>
    have hc := h c (List.mem_cons_self c t)
    have iht := ih (fun u hu => h u (List.mem_cons_of_mem c hu))
    simp only [List.cons_append, commaSplit, if_neg hc, List.append_eq, iht]

theorem splitTLSGo_comma (s : Str) (hbf : ∀ c ∈ s, c ≠ '{' ∧ c ≠ '}') :
    ∀ (todo : Str) (i lastend : Nat) (prev : Char) (acc : List Str) (p : Str),
      s.drop i = todo → lastend ≤ i → s.drop lastend = p ++ todo →
      p.length = i - lastend → (∀ c ∈ p, c ≠ ',') →
      splitTLSGo s [','] false todo i 0 lastend prev acc =
        acc ++ commaSplit (s.drop lastend) := by
  intro todo
  induction todo with
  | nil =>
    intro i lastend prev acc p h1 h2 h3 h4 h5
    have hp : s.drop lastend = p := by simpa using h3
    simp only [splitTLSGo]
    rw [hp, commaSplit_no_comma p h5]
  | cons r todo' ih =>
    intro i lastend prev acc p h1 h2 h3 h4 h5
    have hrs : r ∈ s := by
      have hm : r ∈ s.drop i := by
        rw [h1]
        exact List.mem_cons_self r todo'
      exact List.mem_of_mem_drop hm
    have hlen : i < s.length := by
      have hl := congrArg List.length h1
      rw [List.length_drop] at hl
      simp only [List.length_cons] at hl
      omega
    have h1' : s.drop (i + 1) = todo' := by
      have hd := congrArg (List.drop 1) h1
      rw [List.drop_drop] at hd
      simpa [Nat.add_comm] using hd
    have htake : (s.drop i).take 1 = [r] := by
      rw [h1]
      rfl
    show splitTLSGo s [','] false (r :: todo') i 0 lastend prev acc = _
    simp only [splitTLSGo, List.length_singleton]
    rw [if_neg (hbf r hrs).1, if_neg (hbf r hrs).2]
    by_cases hrc : r = ','
    · rw [if_pos ?hpcond]
      case hpcond =>
        refine ⟨rfl, h2, by omega, ?_, by simp⟩
        rw [htake, hrc]
        decide
      have hp0 : (s.drop lastend).take (i - lastend) = p := by
        rw [h3, ← h4, List.take_left]
      rw [hp0,
        ih (i + 1) (i + 1) r (acc ++ [p]) [] h1' (Nat.le_refl _)
          (by simpa using h1') (by simp) (by simp),
        h1', h3, hrc, commaSplit_append p todo' h5]
      simp
    · rw [if_neg ?hncond]
      case hncond =>
        intro hc
        rcases hc with ⟨-, -, -, hc4, -⟩
        rw [htake] at hc4
        simp only [lowerStr, List.map, List.cons.injEq] at hc4
        exact hrc (toLower_comma r hc4.1)
      exact ih (i + 1) lastend r acc (p ++ [r]) h1' (by omega)
        (by rw [h3]; simp)
        (by simp only [List.length_append, List.length_singleton]; omega)
        (by
          intro u hu
          rcases List.mem_append.mp hu with hu1 | hu2
          · exact h5 u hu1
          · simp only [List.mem_singleton] at hu2
            rw [hu2]
            exact hrc)

theorem splitOnTopLevelString_comma (s : Str)
    (hbf : ∀ c ∈ s, c ≠ '{' ∧ c ≠ '}') :
    splitOnTopLevelString s [','] false = commaSplit s := by
  have hm := splitTLSGo_comma s hbf s 0 0 ' ' [] [] rfl (Nat.le_refl 0)
    (by simp) rfl (by simp)
  rw [splitOnTopLevelString]
  simpa using hm

theorem joinSp_chars (ws : List Str) (hg : ∀ w ∈ ws, goodWord w) :
    ∀ c ∈ joinSp ws, c = ' ' ∨ plainChar c = true := by
  intro c hc
  rcases mem_joinSp ws c hc with hsp | ⟨w, hw, hcw⟩
  · exact Or.inl hsp
  · exact Or.inr ((hg w hw).2 c hcw)

theorem tame_char (c : Char) (h : c = ' ' ∨ plainChar c = true) :
    c ≠ '{' ∧ c ≠ '}' ∧ c ≠ ',' ∧ c ≠ '"' := by
  rcases h with h | h
  · subst h
    refine ⟨by decide, by decide, by decide, by decide⟩
  · obtain ⟨_, h1, h2, h3, h4⟩ := plain_spec c h
    exact ⟨h1, h2, h4, h3⟩

theorem head?_joinSp_nonspace (ws : List Str) (hg : ∀ w ∈ ws, goodWord w) :
    ∀ c, (joinSp ws).head? = some c → isSpace c = false := by
  intro c hc
  cases ws with
  | nil => simp [joinSp] at hc
  | cons w r =>
    rw [head?_joinSp w r (hg w (List.mem_cons_self w r)).1] at hc
    have hcw := mem_of_head? w c hc
    have hpl := (plain_spec c ((hg w (List.mem_cons_self w r)).2 c hcw)).1
    simpa [isSpace] using hpl

theorem getLast?_joinSp_nonspace (ws : List Str) (hne : ws ≠ [])
    (hg : ∀ w ∈ ws, goodWord w) :
    ∀ c, (joinSp ws).getLast? = some c → isSpace c = false := by
  intro c hc
  obtain ⟨w2, hw2, heq⟩ := getLast?_joinSp ws hne (fun w hw => (hg w hw).1)
  rw [heq] at hc
  have hcw := mem_of_getLast? w2 c hc
  have hpl := (plain_spec c ((hg w2 hw2).2 c hcw)).1
  simpa [isSpace] using hpl

theorem lookupV_cons (yk : Str) (yv : Value) (t : List (Str × Value))
    (k : Str) :
    lookupV ((yk, yv) :: t) k = if yk = k then some yv else lookupV t k := rfl

theorem lookupV_append (acc : List (Str × Value)) (x : Str × Value)
    (k : Str) :
    lookupV (acc ++ [x]) k =
      match lookupV acc k with
      | some v => some v
      | none => if x.1 = k then some x.2 else none := by
  obtain ⟨xk, xv⟩ := x
  induction acc with
  | nil => rfl
  | cons y t ih =>
    obtain ⟨yk, yv⟩ := y
    rw [List.cons_append, lookupV_cons, lookupV_cons]
    by_cases hy : yk = k
    · rw [if_pos hy, if_pos hy]
    · rw [if_neg hy, if_neg hy, ih]

theorem lookupV_none_iff (acc : List (Str × Value)) (k : Str) :
    lookupV acc k = none ↔ ∀ p ∈ acc, p.1 ≠ k := by
  induction acc with
  | nil => simp [lookupV]
  | cons y t ih =>
    obtain ⟨yk, yv⟩ := y
    rw [lookupV_cons]
    by_cases hy : yk = k
    · rw [if_pos hy]
      constructor
      · intro h
        exact absurd h (by simp)
      · intro h
        exact absurd hy (h (yk, yv) (List.mem_cons_self _ _))
    · rw [if_neg hy, ih]
      constructor
      · intro h p hp
        rcases List.mem_cons.mp hp with he | hm
        · rw [he]
          simpa using hy
        · exact h p hm
      · intro h p hp
        exact h p (List.mem_cons_of_mem _ hp)

theorem lookupV_insertTag (acc : List (Str × Value)) (t : Str) (v : Value)
    (k : Str) :
    lookupV (insertTag acc t v) k =
      match lookupV acc k with
      | some v' => some v'
      | none => if lowerStr t = k then some v else none := by
  rw [insertTag]
  by_cases hc : acc.any (fun p => decide (p.1 = lowerStr t)) = true
  · rw [if_pos hc]
    cases hl : lookupV acc k with
    | some v' => rfl
    | none =>
      obtain ⟨p, hp, hpk⟩ := List.any_eq_true.mp hc
      have hne : lowerStr t ≠ k := fun he =>
        (lookupV_none_iff acc k).mp hl p hp
          (by rw [of_decide_eq_true hpk, he])
      show (none : Option Value) = if lowerStr t = k then some v else none
      rw [if_neg hne]
  · rw [if_neg hc, lookupV_append]

theorem buildFoldl_lookup (ps : List (Str × Value)) :
    ∀ (acc : List (Str × Value)) (k : Str),
      lookupV (ps.foldl (fun a p => insertTag a p.1 p.2) acc) k =
        match lookupV acc k with
        | some v => some v
        | none => (ps.find? (fun p => decide (lowerStr p.1 = k))).map
            Prod.snd := by
  induction ps with
  | nil =>
    intro acc k
    rw [List.foldl_nil]
    cases lookupV acc k with
    | some v => rfl
    | none => rfl
  | cons q qs ih =>
    intro acc k
    rw [List.foldl_cons, ih, lookupV_insertTag]
    cases lookupV acc k with
    | some v => rfl
    | none =>
      by_cases hq : lowerStr q.1 = k
      · have hfind : List.find? (fun p : Str × Value =>
            decide (lowerStr p.1 = k)) (q :: qs) = some q := by
          apply List.find?_cons_of_pos
          simpa using hq
        rw [if_pos hq, hfind]
        rfl
      · have hfind : List.find? (fun p : Str × Value =>
            decide (lowerStr p.1 = k)) (q :: qs) =
            List.find? (fun p => decide (lowerStr p.1 = k)) qs := by
          apply List.find?_cons_of_neg
          simpa using hq
        rw [if_neg hq, hfind]

theorem insertSym_mem (m : List (Str × Value)) (k : Str) (v : Value) :
    (insertSym m k v).any (fun q => decide (q.1 = k)) = true := by
  rw [insertSym]
  by_cases hc : m.any (fun p => decide (p.1 = k)) = true
  · rw [if_pos hc]
    obtain ⟨p, hp, hpk⟩ := List.any_eq_true.mp hc
    refine List.any_eq_true.mpr ⟨if p.1 = k then (k, v) else p,
      List.mem_map_of_mem _ hp, ?_⟩
    rw [if_pos (of_decide_eq_true hpk)]
    simp
  · rw [if_neg hc]
    exact List.any_eq_true.mpr ⟨(k, v), by simp, by simp⟩

theorem insertSym_mono (m : List (Str × Value)) (k k2 : Str) (v : Value)
    (h : m.any (fun q => decide (q.1 = k2)) = true) :
    (insertSym m k v).any (fun q => decide (q.1 = k2)) = true := by
  rw [insertSym]
  obtain ⟨p, hp, hpk⟩ := List.any_eq_true.mp h
  have hpk2 : p.1 = k2 := of_decide_eq_true hpk
  by_cases hc : m.any (fun p => decide (p.1 = k)) = true
  · rw [if_pos hc]
    refine List.any_eq_true.mpr ⟨if p.1 = k then (k, v) else p,
      List.mem_map_of_mem _ hp, ?_⟩
    by_cases hpk3 : p.1 = k
    · rw [if_pos hpk3]
      simp [← hpk3, hpk2]
    · rw [if_neg hpk3]
      simpa using hpk2
  · rw [if_neg hc]
    exact List.any_eq_true.mpr ⟨p, List.mem_append_left _ hp, hpk⟩

theorem foldInsert_mono (qs : List (Str × Value)) :
    ∀ (syms : List (Str × Value)) (k2 : Str),
      syms.any (fun q => decide (q.1 = k2)) = true →
      ((qs.foldl (fun acc q => insertSym acc (lowerStr q.1) q.2) syms).any
        (fun q => decide (q.1 = k2))) = true := by
  induction qs with
  | nil => intro syms k2 h; exact h
  | cons q qs ih =>
    intro syms k2 h
    rw [List.foldl_cons]
    exact ih _ k2 (insertSym_mono syms (lowerStr q.1) k2 q.2 h)

theorem foldInsert_mem (pairs : List (Str × Value)) :
    ∀ (syms : List (Str × Value)), ∀ p ∈ pairs,
      ((pairs.foldl (fun acc q => insertSym acc (lowerStr q.1) q.2)
        syms).any (fun q => decide (q.1 = lowerStr p.1))) = true := by
  induction pairs with
  | nil => intro syms p hp; simp at hp
  | cons q qs ih =>
    intro syms p hp
    rw [List.foldl_cons]
    rcases List.mem_cons.mp hp with he | hm
    · subst he
      exact foldInsert_mono qs _ _ (insertSym_mem syms (lowerStr p.1) p.2)
    · exact ih _ p hm

theorem bal_of_balancedB (s : Str) (h : balancedB s = true) : Bal s := by
  rw [balancedB] at h
  exact bal_of_scan s.length s le_rfl (by simpa using h)

/-! ## Claim theorems -/

/-- C3, counterexample: the claim quantifies over every depth bound `d`, but
at `d = 0` a symbol that is defined only in the predefined month table is
returned unchanged instead of resolving immediately to a String value:
`SymbolValue(Symbol "jan", 0)` on an empty user table is still the Symbol
"jan", although "jan" is in the month table. -/
theorem c3_counterexample :
    symbolValue dbEmpty (vSym "jan") 0 = vSym "jan" ∧
    predef (lowerStr (str "jan")) = some (str "January") ∧
    (vSym "jan").t ≠ .stringType := ⟨rfl, by decide, by decide⟩

/-- C3, amended: for every Value `v` and depth bound `d`, `SymbolValue(v, d)`
returns `v` unchanged when `v` is not a Symbol; a symbol undefined everywhere
is returned unchanged; a symbol found only in the predefined month table
resolves to a String value with no further chaining provided `d ≥ 1` (at
`d = 0`, or a negative Go depth, every value is returned unchanged); a symbol
bound in the user table chains: one substitution is performed and resolution
continues with one unit of depth spent, so a bound of `d` allows at most `d`
substitutions and exceeding it returns the last value reached, never an
error; in particular the cycle a → b → a resolves at depth 10 to one of the
cycle's two values. -/
theorem c3_amended (db : Database) :
    (∀ v d, v.t ≠ .symbolType → symbolValue db v d = v) ∧
    (∀ v d, lookupV db.symbols (lowerStr v.s) = none →
      predef (lowerStr v.s) = none → symbolValue db v d = v) ∧
    (∀ v m d, v.t = .symbolType → 1 ≤ d →
      lookupV db.symbols (lowerStr v.s) = none →
      predef (lowerStr v.s) = some m →
      symbolValue db v d = ⟨.stringType, m, 0⟩) ∧
    (∀ v v2 d, v.t = .symbolType →
      lookupV db.symbols (lowerStr v.s) = some v2 →
      symbolValue db v (d + 1) = symbolValue db v2 d) ∧
    (∀ v, symbolValue db v 0 = v) ∧
    (symbolValue dbCycle (vSym "a") 10 = vSym "a" ∨
     symbolValue dbCycle (vSym "a") 10 = vSym "b") :=
  ⟨fun v d h => symbolValue_nonsymbol db v d h,
   fun v d h1 h2 => symbolValue_undef db v d h1 h2,
   fun v m d ht hd h1 h2 => symbolValue_predef db v m d ht hd h1 h2,
   fun v v2 d ht h1 => symbolValue_user db v v2 d ht h1,
   fun v => rfl,
   Or.inl (by decide)⟩

/-- C3, witness: the amended theorem applied at the empty database resolves
the predefined symbol "jan" at depth 1 to the String "January". -/
theorem c3_witness :
    symbolValue dbEmpty (vSym "jan") 1 = ⟨.stringType, str "January", 0⟩ :=
  (c3_amended dbEmpty).2.2.1 (vSym "jan") (str "January") 1 (by decide)
    (by decide) (by decide) (by decide)

/-- C6: with "2020" undefined in the user symbol table, Number(2020) and
Symbol("2020") are not `Value.Equals` in either order (tags differ), while
`Database.Less` is false in both orders: the mixed-type fallback compares the
decimal string "2020" of the number with the symbol's literal text "2020"
after symbol resolution leaves the symbol unchanged. -/
theorem c6_number_symbol_order (db : Database)
    (h : lookupV db.symbols (str "2020") = none) :
    valueEquals (vNum 2020) (vSym "2020") = false ∧
    valueEquals (vSym "2020") (vNum 2020) = false ∧
    less db (vNum 2020) (vSym "2020") = false ∧
    less db (vSym "2020") (vNum 2020) = false := by
  have hl : lowerStr (str "2020") = str "2020" := by decide
  have e1 : symbolValue db (vNum 2020) 10 = vNum 2020 :=
    symbolValue_nonsymbol db _ 10 (by decide)
  have e2 : symbolValue db (vSym "2020") 10 = vSym "2020" := by
    refine symbolValue_undef db _ 10 ?_ ?_
    · show lookupV db.symbols (lowerStr (str "2020")) = none
      rw [hl]; exact h
    · show predef (lowerStr (str "2020")) = none
      rw [hl]; decide
  refine ⟨by decide, by decide, ?_, ?_⟩
  · simp only [less, e1, e2]; decide
  · simp only [less, e1, e2]; decide

/-- C6, witness: the theorem instantiated at the empty database. -/
theorem c6_witness :
    valueEquals (vNum 2020) (vSym "2020") = false ∧
    valueEquals (vSym "2020") (vNum 2020) = false ∧
    less dbEmpty (vNum 2020) (vSym "2020") = false ∧
    less dbEmpty (vSym "2020") (vNum 2020) = false :=
  c6_number_symbol_order dbEmpty rfl

/-- C2, code_bug evaluation: on the database with the nested subset chain
X ⊂ Y ⊂ Z sharing one title, `RemoveContainedEntries` marks Y and X but
counts three deletions — the pair (Y, X) is examined after both are already
`Deleted`, their kinds then agree, `IsSubset` succeeds again and `ndel` is
incremented a second time for X — so `removeDeleted` allocates a slice of
length 3 − 3 = 0 and the copy of the survivor Z writes out of range: the Go
program panics, modelled as `none`, instead of compacting as the claim
states. -/
theorem c2_contained_crash :
    c2state.2 = 3 ∧
    (c2state.1.filter fun e => e.kind = .deleted).length = 2 ∧
    removeContainedEntries dbC2 = none := ⟨by decide, by decide, by decide⟩

/-- C5, code_bug evaluation: `FlattenToMinBraces` never tests for the two
simple shapes its own documentation comment (and the spec) require.  On the
mixed string "foo {bar} mRNA" it wraps the strange-case word, returning
"foo {bar} {mRNA}" instead of leaving the flattened string unmodified; and on
the wholly braced string "{now the mRNA}" it returns the string unchanged
instead of walking the inner leaf word-by-word. -/
theorem c5_minBraces_eval :
    flattenToMinBraces (parseBraceTree (str "foo {bar} mRNA")).1 =
      str "foo {bar} {mRNA}" ∧
    flattenGo (parseBraceTree (str "foo {bar} mRNA")).1 =
      str "foo {bar} mRNA" ∧
    flattenToMinBraces (parseBraceTree (str "{now the mRNA}")).1 =
      str "{now the mRNA}" := ⟨by decide, by decide, by decide⟩

/-- C1, counterexample: on two content-equal entries whose keys "A" and "a"
agree case-insensitively, `RemoveExactDups` marks the EARLIER entry deleted
(the loop marks `entries[i]` when a later equal `entries[j]` exists), so the
survivor is the later entry with key "a"; the claim, which marks the later
entry of each pair, would leave the entry with key "A". -/
theorem c1_counterexample :
    removeExactDups dbC1 = some ⟨[eDupLower], [], []⟩ ∧
    removeExactDups dbC1 ≠ some ⟨[eDupUpper], [], []⟩ ∧
    eDupLower.key ≠ eDupUpper.key := ⟨by decide, by decide, by decide⟩

/-- C1, amended: for every Database whose entries are not already Deleted,
`RemoveExactDups` partitions the entries by case-insensitive key and marks an
entry Deleted exactly when a LATER entry of its partition is `Entry.Equals`
to it (the earlier entry of each equal pair is marked, not the later one);
the compacted Pubs sequence is exactly the entries without a later duplicate,
in their original relative order (`survivorsSpec`).  Consequently, for a pair
i < j of entries with the same case-insensitive key and equal content, the
earlier entry i is always deleted, and the later entry j survives when no
entry after it duplicates it — so exactly one survivor remains for two
entries with identical Kind, Key, field set and field values. -/
theorem c1_amended (db : Database) (h : ∀ e ∈ db.pubs, e.kind ≠ .deleted) :
    removeExactDups db = some { db with pubs := survivorsSpec db.pubs } ∧
    (∀ i j, i < j → j < db.pubs.length →
      lowerKeyE (getE db.pubs j) = lowerKeyE (getE db.pubs i) →
      entryEquals (getE db.pubs i) (getE db.pubs j) = true →
      hasLaterExactDup db.pubs i = true ∧
      ((∀ k, j < k → k < db.pubs.length →
          lowerKeyE (getE db.pubs k) = lowerKeyE (getE db.pubs j) →
          entryEquals (getE db.pubs j) (getE db.pubs k) = false) →
        hasLaterExactDup db.pubs j = false)) := by
  refine ⟨removeExactDups_eq db h, ?_⟩
  intro i j hij hjn hkey heq
  constructor
  · exact (hasLaterExactDup_iff db.pubs i).mpr ⟨j, hij, hjn, hkey, heq⟩
  · intro hnone
    rcases Bool.eq_false_or_eq_true (hasLaterExactDup db.pubs j) with h1 | h0
    · obtain ⟨k, k1, k2, k3, k4⟩ := (hasLaterExactDup_iff db.pubs j).mp h1
      rw [hnone k k1 k2 k3] at k4
      exact absurd k4 (by simp)
    · exact h0

/-- C1, witness: the amended theorem applied to the two-entry database with
keys "A" and "a": the compaction equals the specified survivors and the
earlier entry is recognised as having a later duplicate. -/
theorem c1_witness :
    removeExactDups dbC1 = some { dbC1 with pubs := survivorsSpec dbC1.pubs } ∧
    hasLaterExactDup dbC1.pubs 0 = true :=
  ⟨(c1_amended dbC1 (by decide)).1,
   ((c1_amended dbC1 (by decide)).2 0 1 (by decide) (by decide) (by decide)
      (by decide)).1⟩

/-- C4, counterexample: the string "{}" has balanced braces and
`ParseBraceTree` consumes it entirely, but the parsed empty group flattens to
the empty string — `Flatten` drops a childless internal node, returning its
empty leaf text without braces — so `Flatten` does not equal the
whitespace-trimmed original "{}". -/
theorem c4_counterexample :
    balancedB (str "{}") = true ∧
    (parseBraceTree (str "{}")).2 = (str "{}").length ∧
    flattenGo (parseBraceTree (str "{}")).1 ≠ trimList (str "{}") :=
  ⟨by decide, by decide, by decide⟩

/-- C4, amended: for every input string with balanced braces,
`ParseBraceTree` consumes the entire string (the consumed count equals the
input length); and provided the string additionally contains no empty brace
group "{}", `Flatten` applied to the resulting tree equals the
whitespace-trimmed original string. -/
theorem c4_amended (s : Str) (h : balancedB s = true) :
    (parseBraceTree s).2 = s.length ∧
    (noAdjB s = true → flattenGo (parseBraceTree s).1 = trimList s) := by
  have hb : Bal s := bal_of_balancedB s h
  obtain ⟨ks2, hp, hf⟩ := parse_top s hb s.length [] [] le_rfl
  constructor
  · rw [parseBraceTree, hp]
  · intro hna
    rw [parseBraceTree, hp]
    show trimList (flattenN true true (BraceNode.mk ks2 [])) = trimList s
    rw [flattenN_root]
    have hflat := hf hna
    simp only [flattenKids, List.nil_append] at hflat
    rw [hflat]

/-- C4, witness: the amended theorem applied to the balanced, empty-group-free
string "a{b c}d". -/
theorem c4_witness :
    (parseBraceTree (str "a{b c}d")).2 = (str "a{b c}d").length ∧
    flattenGo (parseBraceTree (str "a{b c}d")).1 = trimList (str "a{b c}d") :=
  ⟨(c4_amended (str "a{b c}d") (by decide)).1,
   (c4_amended (str "a{b c}d") (by decide)).2 (by decide)⟩

/-- C7, counterexample: the claim describes the von part as the longest
prefix of lowercase-initial words, but `parseVon` scans backwards for the
LAST lowercase-initial word before the final word and takes everything up to
it, including interior uppercase-initial words: "Henry b C d E" parses with
Von = "b C d" where the claim's longest-lowercase-prefix rule yields "b". -/
theorem c7_counterexample :
    normalizeName (str "Henry b C d E") =
      some ⟨false, str "Henry", str "E", str "b C d", []⟩ ∧
    str "b C d" ≠ str "b" := ⟨by decide, by decide⟩

/-- C7, amended: `NormalizeName("von de Moo, Jr., Henry")` yields the Author
{Von "von de", Last "Moo", Jr "Jr.", First "Henry"}, and
`NormalizeName("Henry von de Moo")` yields the same First/Von/Last parts via
the single-part heuristic; in general the von/last split of a nonempty word
sequence puts the final word in Last and lets Von extend up to and including
the LAST lowercase-initial word among the words before the final one (so Von
is empty iff no such word exists, and every word of Last except the final one
is not lowercase-initial). -/
theorem c7_amended :
    normalizeName (str "von de Moo, Jr., Henry") =
      some ⟨false, str "Henry", str "Moo", str "von de", str "Jr."⟩ ∧
    normalizeName (str "Henry von de Moo") =
      some ⟨false, str "Henry", str "Moo", str "von de", []⟩ ∧
    (∀ ws : List Str, ws ≠ [] →
      ∃ vw lw, ws = vw ++ lw ∧ lw ≠ [] ∧
        parseVon ws = some (joinSp vw, joinSp lw) ∧
        (∀ w, vw.getLast? = some w → isLowerInitial w = true) ∧
        (∀ w ∈ lw.dropLast, isLowerInitial w = false)) :=
  ⟨by decide, by decide, parseVon_spec⟩

/-- C7, witness: the amended theorem's general von/last clause instantiated
at the concrete word list ["von", "Moo"]. -/
theorem c7_witness :
    normalizeName (str "Henry von de Moo") =
      some ⟨false, str "Henry", str "Moo", str "von de", []⟩ ∧
    (∃ vw lw, [str "von", str "Moo"] = vw ++ lw ∧ lw ≠ [] ∧
      parseVon [str "von", str "Moo"] = some (joinSp vw, joinSp lw) ∧
      (∀ w, vw.getLast? = some w → isLowerInitial w = true) ∧
      (∀ w ∈ lw.dropLast, isLowerInitial w = false)) :=
  ⟨c7_amended.2.1, c7_amended.2.2 [str "von", str "Moo"] (by decide)⟩

/-- C8, counterexample: the rendering convention is NOT an exact inverse of
the parser.  NormalizeName("Moo, Jr., ") produces an author with an empty
first name and Jr "Jr."; Author.String renders it as just "Moo" (the
empty-first-name branch drops the jr part), which re-parses to an author
without the jr: the round-trip loses the suffix. -/
theorem c8_counterexample :
    normalizeName (str "Moo, Jr., ") = some cAuthorJr ∧
    authorString cAuthorJr = str "Moo" ∧
    normalizeName (authorString cAuthorJr) = some cAuthorNoJr ∧
    cAuthorNoJr ≠ cAuthorJr := by decide

/-- C8, amended: the round-trip `NormalizeName (a.String()) = a` holds for
simple authors: not the "others" placeholder, empty Jr, Von and Last the
space-joins of lists of nonempty words of plain characters (no whitespace,
braces, double quotes or commas) with the boundary shape the parser itself
produces (Von ends in a lowercase-initial word when nonempty, no word of
Last except its final one is lowercase-initial), Last nonempty, and a First
that is nonempty, trimmed, and made of spaces and plain characters. -/
theorem c8_amended (a : Author) (vw lw : List Str)
    (ho : a.others = false)
    (hvw : a.von = joinSp vw) (hlw : a.last = joinSp lw)
    (hlwne : lw ≠ [])
    (hgood : ∀ w ∈ vw ++ lw, goodWord w)
    (hvshape : ∀ w, vw.getLast? = some w → isLowerInitial w = true)
    (hlshape : ∀ w ∈ lw.dropLast, isLowerInitial w = false)
    (hfj : goodPart a.first)
    (hj : a.jr = []) :
    normalizeName (authorString a) = some a := by
  obtain ⟨w0, r0, hvl⟩ : ∃ w r, vw ++ lw = w :: r := by
    cases h : vw ++ lw with
    | nil => exact absurd (List.append_eq_nil.mp h).2 hlwne
    | cons w r => exact ⟨w, r, rfl⟩
  have hgood0 : goodWord w0 :=
    hgood w0 (by rw [hvl]; exact List.mem_cons_self w0 r0)
  have hLne : joinSp (vw ++ lw) ≠ [] := by
    rw [hvl]
    exact joinSp_ne_nil w0 r0 hgood0.1
  have hLchars : ∀ c ∈ joinSp (vw ++ lw), c = ' ' ∨ plainChar c = true :=
    joinSp_chars (vw ++ lw) hgood
  have hlast0 : (if a.von.isEmpty then a.last
      else a.von ++ ' ' :: a.last) = joinSp (vw ++ lw) := by
    rw [hvw, hlw]
    cases vw with
    | nil => simp [joinSp]
    | cons v vt =>
      have hvne := joinSp_ne_nil v vt
        (hgood v (List.mem_append_left lw (List.mem_cons_self v vt))).1
      rw [if_neg (by simpa [List.isEmpty_iff] using hvne),
        joinSp_append (v :: vt) lw (by simp) hlwne]
  have hS : authorString a = joinSp (vw ++ lw) ++ ',' :: ' ' :: a.first := by
    simp only [authorString, ho, Bool.false_eq_true, if_false]
    rw [hlast0,
      quoteName_id _ (fun c hc => (tame_char c (hLchars c hc)).2.2.2),
      quoteName_id _ (fun c hc => (tame_char c (hfj.2.2 c hc)).2.2.2),
      if_neg (by simpa [List.isEmpty_iff] using hLne),
      if_neg (by simpa [List.isEmpty_iff] using hfj.1),
      if_pos (by simp [hj])]
  have hheadL := head?_joinSp_nonspace (vw ++ lw) hgood
  have hlastL := getLast?_joinSp_nonspace (vw ++ lw) (by rw [hvl]; simp)
    hgood
  have htrimL : trimList (joinSp (vw ++ lw)) = joinSp (vw ++ lw) :=
    trimList_eq_self _ hheadL hlastL
  have htrimS : trimList (joinSp (vw ++ lw) ++ ',' :: ' ' :: a.first) =
      joinSp (vw ++ lw) ++ ',' :: ' ' :: a.first := by
    apply trimList_eq_self
    · intro c hc
      rw [head?_append_of_ne_nil _ _ hLne] at hc
      exact hheadL c hc
    · intro c hc
      rw [getLast?_append_right _ _ (by simp),
        show (',' :: ' ' :: a.first) = [',', ' '] ++ a.first from rfl,
        getLast?_append_right _ _ hfj.1] at hc
      exact trim_self_getLast a.first hfj.2.1 c hc
  have hSbf : ∀ c ∈ joinSp (vw ++ lw) ++ ',' :: ' ' :: a.first,
      c ≠ '{' ∧ c ≠ '}' := by
    intro c hc
    rcases List.mem_append.mp hc with h1 | h2
    · have ht := tame_char c (hLchars c h1)
      exact ⟨ht.1, ht.2.1⟩
    · rcases List.mem_cons.mp h2 with he | h3
      · subst he
        exact ⟨by decide, by decide⟩
      · rcases List.mem_cons.mp h3 with he | h4
        · subst he
          exact ⟨by decide, by decide⟩
        · have ht := tame_char c (hfj.2.2 c h4)
          exact ⟨ht.1, ht.2.1⟩
  have hsplit : splitOnTopLevelString
      (joinSp (vw ++ lw) ++ ',' :: ' ' :: a.first) [','] false =
      [joinSp (vw ++ lw), ' ' :: a.first] := by
    rw [splitOnTopLevelString_comma _ hSbf,
      commaSplit_append _ _
        (fun c hc => (tame_char c (hLchars c hc)).2.2.1),
      commaSplit_no_comma (' ' :: a.first) ?hfc]
    case hfc =>
      intro c hc
      rcases List.mem_cons.mp hc with he | h2
      · subst he
        decide
      · exact (tame_char c (hfj.2.2 c h2)).2.2.1
  rw [hS]
  simp only [normalizeName]
  rw [htrimS, if_neg ?hne1, if_neg ?hne2, hsplit]
  case hne1 =>
    simp [List.isEmpty_iff]
  case hne2 =>
    intro he
    have hmem0 : ',' ∈ joinSp (vw ++ lw) ++ ',' :: ' ' :: a.first :=
      List.mem_append_right _ (List.mem_cons_self _ _)
    have h2 := List.mem_map_of_mem Char.toLower hmem0
    have h3 : Char.toLower ',' = ',' := by decide
    rw [h3] at h2
    have h4 : ',' ∈ lowerStr (joinSp (vw ++ lw) ++ ',' :: ' ' :: a.first) :=
      h2
    rw [he] at h4
    exact absurd h4 (by decide)
  simp only [List.map_cons, List.map_nil]
  rw [htrimL, trimList_cons_space, hfj.2.1]
  show (parseVon (splitTL (joinSp (vw ++ lw)))).map
      (fun vl => (⟨false, a.first, vl.2, vl.1, []⟩ : Author)) = some a
  rw [splitTL_joinSp (vw ++ lw) hgood,
    parseVon_recompose vw lw hlwne hvshape hlshape]
  show some (⟨false, a.first, joinSp lw, joinSp vw, []⟩ : Author) = some a
  rw [← hvw, ← hlw, ← hj, ← ho]

/-- C8, witness: the amended round-trip at the concrete simple author
{Von "von de", Last "Moo", First "Henry"}. -/
theorem c8_witness :
    normalizeName (authorString
      ⟨false, str "Henry", str "Moo", str "von de", []⟩) =
      some ⟨false, str "Henry", str "Moo", str "von de", []⟩ :=
  c8_amended ⟨false, str "Henry", str "Moo", str "von de", []⟩
    [str "von", str "de"] [str "Moo"] rfl (by decide) (by decide)
    (by decide) (by decide)
    (fun w hw => by
      have h2 : some (str "de") = some w := hw
      injection h2 with h3
      rw [← h3]
      decide)
    (by decide) (by decide) rfl

/-- C9: with the tag/value pairs of one entry folded in source order into
the Fields map (modelled from the spec: a pair whose lowercased tag is
already present is dropped), looking up any key returns the value of the
FIRST pair whose lowercased tag matches — later occurrences of a duplicate
tag are dropped. -/
theorem c9_first_tag_kept (ps : List (Str × Value)) (k : Str) :
    lookupV (buildFields ps) k =
      (ps.find? (fun p => decide (lowerStr p.1 = k))).map Prod.snd := by
  rw [buildFields, buildFoldl_lookup ps [] k]
  rfl

/-- C9, witness: with `year` given twice, the built field map holds the
first occurrence's value. -/
theorem c9_witness :
    lookupV (buildFields [(str "Year", vStr "1999"),
      (str "YEAR", vStr "2000")]) (str "year") = some (vStr "1999") := by
  rw [c9_first_tag_kept]
  decide

/-- C10: processing an @string block (modelled from the spec) records a
count-mismatch error iff the block defines zero pairs — more than one pair
is accepted — and every pair the block defines is present in the resulting
symbol table under its lowercased symbol. -/
theorem c10_string_block (syms pairs : List (Str × Value)) :
    ((processStringBlock syms pairs).2 = true ↔ pairs = []) ∧
    (∀ p ∈ pairs,
      ((processStringBlock syms pairs).1.any
        (fun q => decide (q.1 = lowerStr p.1))) = true) := by
  constructor
  · simp [processStringBlock, List.length_eq_zero]
  · intro p hp
    exact foldInsert_mem pairs syms p hp

/-- C10, witness: the empty block errors; a two-pair block does not error
and both symbols land in the table lowercased. -/
theorem c10_witness :
    (processStringBlock [] ([] : List (Str × Value))).2 = true ∧
    (processStringBlock [] [(str "JAN", vStr "January"),
      (str "Feb", vStr "February")]).2 = false ∧
    ((processStringBlock [] [(str "JAN", vStr "January"),
      (str "Feb", vStr "February")]).1.any
      (fun q => decide (q.1 = lowerStr (str "JAN")))) = true := by
  refine ⟨(c10_string_block [] []).1.mpr rfl, ?_, ?_⟩
  · have h := (c10_string_block [] [(str "JAN", vStr "January"),
      (str "Feb", vStr "February")]).1
    have h2 : ¬((processStringBlock [] [(str "JAN", vStr "January"),
        (str "Feb", vStr "February")]).2 = true) := fun hf => by
      simpa using h.mp hf
    exact Bool.eq_false_iff.mpr h2
  · exact (c10_string_block [] [(str "JAN", vStr "January"),
      (str "Feb", vStr "February")]).2 (str "JAN", vStr "January")
      (by simp)

end Biblint
